import Mathlib

set_option maxHeartbeats 1000000

/-!
Formal model of the `configparser` library (INI-style configuration files).

The parser, serializer and store accessors are shallowly embedded from
`src/configparser.js`.  JavaScript strings are modelled as `List Char`
(`Str`), the `_sections` object as an insertion-ordered association list,
and the regular expressions `SECTION`, `KEY` and `COMMENT` as executable
functions whose behaviour matches the semantics of `RegExp.exec` on the
corresponding patterns.  Input lines come from splitting the file on the
Unicode line-boundary rule, so lines processed by the parser never contain
line terminators.  The interpolation module is not part of the sources and
is modelled from the specification where noted.
-/

/-- Strings of the JavaScript program, modelled as explicit character lists. -/
abbrev Str := List Char

/-- White-space class of the JavaScript regular-expression escape for white
space (used by the leading-strip `replace` and by the spacing parts of the
`KEY` pattern): TAB, LF, VT, FF, CR, SP, NBSP, Ogham space, the U+2000 to
U+200A range, LS, PS, NNBSP, MMSP, ideographic space and the BOM. -/
def isWs (c : Char) : Bool :=
  c = ' ' || c = '\t' || c = '\u000B' || c = '\u000C' || c = '\r' || c = '\n' ||
  c = '\u00A0' || c = '\u1680' || ('\u2000' ≤ c && c ≤ '\u200A') ||
  c = '\u2028' || c = '\u2029' || c = '\u202F' || c = '\u205F' || c = '\u3000' ||
  c = '\uFEFF'

/-- Line-boundary characters of the `LINE_BOUNDARY` splitting rule: LF, CR,
NEL, LS and PS.  The CRLF pair is recognised as a single boundary by the
splitter itself. -/
def isBoundary (c : Char) : Bool :=
  c = '\n' || c = '\r' || c = '\u0085' || c = '\u2028' || c = '\u2029'

/-- Key/value delimiters of the `KEY` pattern: `=` and `:`. -/
def isDelim (c : Char) : Bool := c = '=' || c = ':'

/-- Comment test on a line whose leading white space has already been
stripped: the first character is a semicolon or a hash (`COMMENT`). -/
def isCommentLine (l : Str) : Bool :=
  match l with
  | [] => false
  | c :: _ => c = ';' || c = '#'

/-- Leading white-space strip, modelling `v.replace(/^\s+/, '')`. -/
def dropLeadingWs (l : Str) : Str := l.dropWhile isWs

/-- Trailing white-space strip (the `\s*` that precedes the delimiter in the
`KEY` pattern). -/
def dropTrailingWs (l : Str) : Str := (l.reverse.dropWhile isWs).reverse

/-- Scan up to the first `]`, returning the characters before it and the
characters after it; `none` when no `]` occurs. -/
def takeToRBracket : Str → Option (Str × Str)
  | [] => none
  | c :: rest =>
    if c = ']' then some ([], rest)
    else
      match takeToRBracket rest with
      | some p => some (c :: p.1, p.2)
      | none => none

/-- Result of `SECTION.exec(line)` for `SECTION = /\s*\[([^\]]+)]/`: the
pattern is unanchored, so the engine searches the whole line for a `[`
followed by one or more non-`]` characters and a `]`, and returns the
capture of the leftmost such match.  A `[` whose very next character is `]`
cannot match (the capture needs at least one character), so scanning
continues after it. -/
def sectionCapture : Str → Option Str
  | [] => none
  | c :: rest =>
    if c = '[' then
      match takeToRBracket rest with
      | some p => if p.1 = [] then sectionCapture rest else some p.1
      | none => none
    else sectionCapture rest

/-- Split at the first `=` or `:`, returning the characters before it, the
delimiter itself, and the characters after it. -/
def splitAtFirstDelim : Str → Option (Str × Char × Str)
  | [] => none
  | c :: rest =>
    if isDelim c then some ([], c, rest)
    else
      match splitAtFirstDelim rest with
      | some p => some (c :: p.1, p.2.1, p.2.2)
      | none => none

/-- Result of `KEY.exec(line)` for `KEY = /\s*(.*?)\s*[=:]\s*(.*)/`, as the
pair of the two capture groups.  The leading greedy `\s*` consumes the
leading white space, the lazy `(.*?)` together with the `\s*` before the
delimiter makes group 1 everything before the first delimiter with its
trailing white space removed, and the `\s*(.*)` after the delimiter makes
group 2 the rest of the line with its leading white space removed.  There
is no match exactly when the line contains no delimiter. -/
def keyExec (l : Str) : Option (Str × Str) :=
  match splitAtFirstDelim (dropLeadingWs l) with
  | some p => some (dropTrailingWs p.1, dropLeadingWs p.2.2)
  | none => none

/-- Section contents: insertion-ordered key/value association list,
modelling a plain JavaScript object used as a map. -/
abbrev Sect := List (Str × Str)

/-- The `_sections` object: insertion-ordered map from section name to
section contents. -/
abbrev Store := List (Str × Sect)

/-- Property lookup on a JavaScript object modelled as an association
list. -/
def lookupAssoc {α : Type} : List (Str × α) → Str → Option α
  | [], _ => none
  | (k', v) :: rest, k => if k' = k then some v else lookupAssoc rest k

/-- Property assignment on a JavaScript object: an existing key keeps its
position and gets the new value, a new key is appended at the end. -/
def setAssoc {α : Type} : List (Str × α) → Str → α → List (Str × α)
  | [], k, v => [(k, v)]
  | (k', v') :: rest, k, v =>
    if k' = k then (k, v) :: rest else (k', v') :: setAssoc rest k v

/-- Assignment `sections[s][k] = v` through the alias held by the parser:
the section named `s` (if present) gets key `k` set to `v`. -/
def storeSetKey : Store → Str → Str → Str → Store
  | [], _, _, _ => []
  | (s', sec) :: rest, s, k, v =>
    if s' = s then (s', setAssoc sec k v) :: rest
    else (s', sec) :: storeSetKey rest s k v

/-- The `transform` option: `'none'`, `'lower'` or `'upper'`. -/
inductive Transform
  | none
  | lower
  | upper
deriving DecidableEq

/-- ASCII lower-casing of a character, the fragment of
`String.prototype.toLowerCase` exercised by the program. -/
def lowChar (c : Char) : Char := c.toLower

/-- ASCII upper-casing of a character, the fragment of
`String.prototype.toUpperCase` exercised by the program. -/
def upChar (c : Char) : Char := c.toUpper

/-- The `transformKey` helper of `parseLines`: apply the configured case
transform to a section or key name; `'none'` (or any other value) leaves
the name unchanged. -/
def applyTransform : Transform → Str → Str
  | Transform.none, s => s
  | Transform.lower, s => s.map lowChar
  | Transform.upper, s => s.map upChar

/-- Parser configuration: the `_file` identifier (set by `read` before
`parseLines` runs), the `_transform` option and whether an `_onInvalidLine`
callback function is configured. -/
structure Config where
  file : Str
  transform : Transform
  onInvalidLine : Bool
deriving DecidableEq

/-- Errors thrown by `parseLines`: `MissingSectionHeaderError` and
`ParseError`, each carrying the file identifier, the zero-based line number
and the (leading-stripped) line text. -/
inductive PError
  | missingSectionHeader (file : Str) (lineNumber : Nat) (line : Str)
  | parseError (file : Str) (lineNumber : Nat) (line : Str)
deriving DecidableEq

/-- Parser state: the store built so far, the name of the current section
(`curSec`), and the list of `{file, lineNumber, line}` records passed to
the `onInvalidLine` callback, in order of invocation. -/
structure PState where
  store : Store
  curSec : Option Str
  events : List (Str × Nat × Str)
deriving DecidableEq

/-- Decidable equality for `Except` results, used to evaluate the model on
concrete inputs. -/
instance {e a : Type} [DecidableEq e] [DecidableEq a] : DecidableEq (Except e a)
  | Except.ok x, Except.ok y =>
    if h : x = y then isTrue (by rw [h]) else isFalse (by simp [h])
  | Except.ok _, Except.error _ => isFalse (by simp)
  | Except.error _, Except.ok _ => isFalse (by simp)
  | Except.error x, Except.error y =>
    if h : x = y then isTrue (by rw [h]) else isFalse (by simp [h])

/-- One pass of `parseLines` over the remaining lines, carrying the
zero-based index of the next line.  Every line is first stripped of
leading white space (the source strips all lines up front with `map`;
doing it per line is the same since each line is visited once, in order).
Classification order matches the source: blank, comment, section header
(`SECTION.exec`), missing-section check, key/value (`KEY.exec` plus the
non-empty-key and no-leading-`=` guards), otherwise the invalid-line
policy: record a callback invocation and continue, or abort with
`ParseError`. -/
def parseLinesAux (cfg : Config) : List Str → Nat → PState → Except PError PState
  | [], _, st => Except.ok st
  | l :: rest, n, st =>
    let line := dropLeadingWs l
    if line = [] then parseLinesAux cfg rest (n + 1) st
    else if isCommentLine line = true then parseLinesAux cfg rest (n + 1) st
    else
      match sectionCapture line with
      | some h =>
        parseLinesAux cfg rest (n + 1)
          ⟨setAssoc st.store (applyTransform cfg.transform h) [],
           some (applyTransform cfg.transform h), st.events⟩
      | none =>
        match st.curSec with
        | none => Except.error (PError.missingSectionHeader cfg.file n line)
        | some s =>
          match keyExec line with
          | some kv =>
            if kv.1 ≠ [] ∧ line.head? ≠ some '=' then
              parseLinesAux cfg rest (n + 1)
                ⟨storeSetKey st.store s (applyTransform cfg.transform kv.1) kv.2,
                 some s, st.events⟩
            else if cfg.onInvalidLine then
              parseLinesAux cfg rest (n + 1)
                ⟨st.store, st.curSec, st.events ++ [(cfg.file, n, line)]⟩
            else Except.error (PError.parseError cfg.file n line)
          | none =>
            if cfg.onInvalidLine then
              parseLinesAux cfg rest (n + 1)
                ⟨st.store, st.curSec, st.events ++ [(cfg.file, n, line)]⟩
            else Except.error (PError.parseError cfg.file n line)

/-- Entry point of `parseLines` on a fresh parser instance. -/
def parseLines (cfg : Config) (lines : List Str) : Except PError PState :=
  parseLinesAux cfg lines 0 ⟨[], none, []⟩

/-- Split a document on the `LINE_BOUNDARY` rule: CRLF as a unit, then LF,
CR, NEL, LS, PS individually, as in `String.prototype.split` with a global
regular expression. -/
def splitLinesAux : Str → Str → List Str
  | [], acc => [acc.reverse]
  | c :: rest, acc =>
    if c = '\r' then
      match rest with
      | c2 :: rest2 =>
        if c2 = '\n' then acc.reverse :: splitLinesAux rest2 []
        else acc.reverse :: splitLinesAux (c2 :: rest2) []
      | [] => acc.reverse :: splitLinesAux [] []
    else if isBoundary c then acc.reverse :: splitLinesAux rest []
    else splitLinesAux rest (c :: acc)

/-- Document split, as performed by `read` before calling `parseLines`. -/
def splitLines (s : Str) : List Str := splitLinesAux s []

/-- Parsing of a whole document: split on line boundaries, then parse the
lines, as `read` does. -/
def parseString (cfg : Config) (doc : Str) : Except PError PState :=
  parseLines cfg (splitLines doc)

/-- One `key=value\n` output line of `getSectionsAsString`. -/
def keyLine (kv : Str × Str) : Str := kv.1 ++ '=' :: kv.2

/-- Serialization of one section body: each key in insertion order as
`key=value\n`. -/
def serializeSec : Sect → Str
  | [] => []
  | kv :: rest => keyLine kv ++ '\n' :: serializeSec rest

/-- The `getSectionsAsString` serializer: for each section in insertion
order, `[name]\n`, the key lines, then a blank separator line. -/
def serializeStore : Store → Str
  | [] => []
  | (s, sec) :: rest =>
    '[' :: (s ++ ']' :: '\n' :: (serializeSec sec ++ '\n' :: serializeStore rest))

/-- The `hasSection` accessor. -/
def hasSection (store : Store) (s : Str) : Bool := (lookupAssoc store s).isSome

/-- The `hasKey` accessor. -/
def hasKey (store : Store) (s k : Str) : Bool :=
  match lookupAssoc store s with
  | some sec => (lookupAssoc sec k).isSome
  | none => false

/-- The `set` accessor: assign only when the section exists, otherwise do
nothing. -/
def setKV (store : Store) (s k v : Str) : Store :=
  if hasSection store s = true then storeSetKey store s k v else store

/-- The `keys` accessor: `Object.keys` of the section when it exists;
`Object.keys(undefined)` throws, which the source catches and rethrows as
`NoSectionError` carrying the section name. -/
def keysF (store : Store) (s : Str) : Except Str (List Str) :=
  match lookupAssoc store s with
  | some sec => Except.ok (sec.map (fun kv => kv.1))
  | none => Except.error s

/-- Result of the numeric coercion accessors: the section is absent
(`undefined`), the parse failed (`NaN`), or a number. -/
inductive NumResult
  | undef
  | nan
  | val (n : Int)
deriving DecidableEq

/-- Numeric value of a digit character for radix parsing (`0`-`9`,
`a`-`z`, `A`-`Z`). -/
def digitVal (c : Char) : Option Nat :=
  if '0' ≤ c ∧ c ≤ '9' then some (c.toNat - 48)
  else if 'a' ≤ c ∧ c ≤ 'z' then some (c.toNat - 87)
  else if 'A' ≤ c ∧ c ≤ 'Z' then some (c.toNat - 55)
  else none

/-- Value of the maximal digit run at the front of the string, folding into
an accumulator. -/
def takeDigitsValAux (r : Nat) : Str → Nat → Nat
  | [], acc => acc
  | c :: rest, acc =>
    match digitVal c with
    | some d => if d < r then takeDigitsValAux r rest (acc * r + d) else acc
    | none => acc

/-- Value of the maximal digit run at the front of the string; `none` when
the first character is not a digit of the radix. -/
def takeDigitsVal (r : Nat) : Str → Option Nat
  | [] => none
  | c :: rest =>
    match digitVal c with
    | some d => if d < r then some (takeDigitsValAux r rest d) else none
    | none => none

/-- Assemble a signed numeric result from an optional magnitude. -/
def mkNum (neg : Bool) : Option Nat → NumResult
  | some v => NumResult.val (if neg then -(v : Int) else (v : Int))
  | none => NumResult.nan

/-- The `parseInt` builtin on a string argument, following the ECMAScript
algorithm: trim leading white space, read an optional sign, interpret the
radix (`0` stands for an unspecified radix: base 10 unless a `0x`/`0X`
prefix selects base 16; an explicit radix outside 2..36 yields `NaN`;
radix 16 also skips a `0x`/`0X` prefix), then take the maximal run of
digits of that radix, yielding `NaN` when it is empty. -/
def jsParseInt (s : Str) (radix : Nat) : NumResult :=
  let t := dropLeadingWs s
  let p : Bool × Str :=
    match t with
    | '-' :: r => (true, r)
    | '+' :: r => (false, r)
    | r => (false, r)
  let t1 := p.2
  if radix = 0 then
    match t1 with
    | '0' :: 'x' :: r2 => mkNum p.1 (takeDigitsVal 16 r2)
    | '0' :: 'X' :: r2 => mkNum p.1 (takeDigitsVal 16 r2)
    | _ => mkNum p.1 (takeDigitsVal 10 t1)
  else if radix < 2 ∨ 36 < radix then NumResult.nan
  else if radix = 16 then
    match t1 with
    | '0' :: 'x' :: r2 => mkNum p.1 (takeDigitsVal 16 r2)
    | '0' :: 'X' :: r2 => mkNum p.1 (takeDigitsVal 16 r2)
    | _ => mkNum p.1 (takeDigitsVal 16 t1)
  else mkNum p.1 (takeDigitsVal radix t1)

/-- String coercion of a missing property: `parseInt` applied to
`undefined` first converts it to the string `"undefined"`. -/
def undefinedText : Str := ['u', 'n', 'd', 'e', 'f', 'i', 'n', 'e', 'd']

/-- The `getInt` accessor: `undefined` when the section is absent,
otherwise `parseInt(sections[s][k], radix)` with a falsy radix defaulting
to 10 (radix `0` models both an omitted radix and `0`). -/
def getIntF (store : Store) (s k : Str) (radix : Nat) : NumResult :=
  match lookupAssoc store s with
  | some sec =>
    jsParseInt
      (match lookupAssoc sec k with
       | some v => v
       | none => undefinedText)
      (if radix = 0 then 10 else radix)
  | none => NumResult.undef

/-- Interpolation value segments: literal characters and `%(name)s`
references.  Modelled from the spec: the interpolation module is not among
the sources; the spec fixes the `%(name)s` placeholder syntax with `%%` as
the literal-percent escape and says deviations are interpolation errors. -/
inductive Seg
  | lit (c : Char)
  | ref (name : Str)
deriving DecidableEq

/-- Lexer state for scanning a raw value: scanning literals, just after an
unescaped `%`, inside a placeholder name (characters accumulated in
reverse), or just after the closing `)` of a name. -/
inductive LexSt
  | normal
  | sawPct
  | inName (acc : Str)
  | sawClose (acc : Str)

/-- Modelled from the spec: one-pass lexing of a raw value into literal and
placeholder segments (`%(name)s` placeholders, `%%` escapes, any other use
of `%` is malformed and is an interpolation error). -/
def lexValueAux : Str → LexSt → Option (List Seg)
  | [], LexSt.normal => some []
  | [], _ => none
  | c :: rest, LexSt.normal =>
    if c = '%' then lexValueAux rest LexSt.sawPct
    else
      match lexValueAux rest LexSt.normal with
      | some segs => some (Seg.lit c :: segs)
      | none => none
  | c :: rest, LexSt.sawPct =>
    if c = '%' then
      match lexValueAux rest LexSt.normal with
      | some segs => some (Seg.lit '%' :: segs)
      | none => none
    else if c = '(' then lexValueAux rest (LexSt.inName [])
    else none
  | c :: rest, LexSt.inName acc =>
    if c = ')' then lexValueAux rest (LexSt.sawClose acc)
    else lexValueAux rest (LexSt.inName (c :: acc))
  | c :: rest, LexSt.sawClose acc =>
    if c = 's' then
      match lexValueAux rest LexSt.normal with
      | some segs => some (Seg.ref acc.reverse :: segs)
      | none => none
    else none

/-- Modelled from the spec: lexing of a raw value. -/
def lexValue (v : Str) : Option (List Seg) := lexValueAux v LexSt.normal

/-- Conventional name of the fallback section for interpolation lookups. -/
def defaultSecName : Str := ['D', 'E', 'F', 'A', 'U', 'L', 'T']

/-- Modelled from the spec: a placeholder reference is looked up first in
the originating section, then in the `DEFAULT` fallback section. -/
def lookupFallback (store : Store) (base k : Str) : Option Str :=
  match (lookupAssoc store base).bind (fun sec => lookupAssoc sec k) with
  | some v => some v
  | none => (lookupAssoc store defaultSecName).bind (fun dsec => lookupAssoc dsec k)

mutual
/-- Modelled from the spec: recursive placeholder resolution.  `interpGo`
expands one key: a key already on the chain of keys currently being
expanded is a reference cycle, a key found in neither scope is a dangling
reference, and both fail with an interpolation error (`none`); otherwise
its value is lexed and its segments resolved.  `resolveSegs` resolves the
segments of a value left to right, expanding each `%(name)s` reference
recursively.  The fuel argument caps the recursion depth; the chain check
fires before the fuel can ever be exhausted when the resolver is started
with fuel exceeding the number of keys in scope. -/
def interpGo (store : Store) (base : Str) : Nat → List Str → Str → Option Str
  | 0, _, _ => none
  | Nat.succ fuel, chain, k =>
    if k ∈ chain then none
    else
      match lookupFallback store base k with
      | none => none
      | some v =>
        match lexValue v with
        | none => none
        | some segs => resolveSegs store base fuel (k :: chain) segs
termination_by f chain k => (f, 0)
/-- Modelled from the spec: left-to-right resolution of value segments. -/
def resolveSegs (store : Store) (base : Str) : Nat → List Str → List Seg → Option Str
  | _, _, [] => some []
  | fuel, chain, Seg.lit c :: segs =>
    match resolveSegs store base fuel chain segs with
    | some t => some (c :: t)
    | none => none
  | fuel, chain, Seg.ref nm :: segs =>
    match interpGo store base fuel chain nm with
    | none => none
    | some rv =>
      match resolveSegs store base fuel chain segs with
      | some t => some (rv ++ t)
      | none => none
termination_by f chain segs => (f, segs.length + 1)
end

/-- Fuel that strictly exceeds the number of keys reachable by fallback
lookup from the base section. -/
def interpFuel (store : Store) (base : Str) : Nat :=
  (match lookupAssoc store base with
   | some sec => sec.length
   | none => 0) +
  (match lookupAssoc store defaultSecName with
   | some dsec => dsec.length
   | none => 0) + 1

/-- Modelled from the spec: the interpolation resolver invoked by a
non-raw `get`; `none` is an `InterpolationError`. -/
def interpolate (store : Store) (base k : Str) : Option Str :=
  interpGo store base (interpFuel store base) [] k

/-- Reference names of a segment list, in order. -/
def refNames : List Seg → List Str
  | [] => []
  | Seg.lit _ :: segs => refNames segs
  | Seg.ref nm :: segs => nm :: refNames segs

/-- Reference names occurring in a raw value (empty when the value does not
lex). -/
def refsOfVal (v : Str) : List Str :=
  match lexValue v with
  | some segs => refNames segs
  | none => []

/-- One placeholder-reference step: the value of `j` (under fallback
lookup) contains a `%(n)s` placeholder. -/
def refTo (store : Store) (base j n : Str) : Bool :=
  match lookupFallback store base j with
  | some v => n ∈ refsOfVal v
  | none => false

/-- The `get` accessor: `undefined` (`Except.ok none`) when the section is
absent; the stored raw value when `raw` is set; otherwise the interpolated
value, an interpolation failure surfacing as a thrown error
(`Except.error`). -/
def getF (store : Store) (s k : Str) (raw : Bool) : Except Unit (Option Str) :=
  match lookupAssoc store s with
  | some sec =>
    if raw then Except.ok (lookupAssoc sec k)
    else
      match interpolate store s k with
      | some r => Except.ok (some r)
      | none => Except.error ()
  | none => Except.ok none

/-! Step equations of the parser, one per classification outcome. -/

/-- Blank line: skipped, no state change. -/
theorem step_blank (cfg : Config) (l : Str) (rest : List Str) (n : Nat) (st : PState)
    (h : dropLeadingWs l = []) :
    parseLinesAux cfg (l :: rest) n st = parseLinesAux cfg rest (n + 1) st := by
  conv_lhs => unfold parseLinesAux
  simp [h]

/-- Comment line: skipped, no state change. -/
theorem step_comment (cfg : Config) (l : Str) (rest : List Str) (n : Nat) (st : PState)
    (h0 : dropLeadingWs l ≠ []) (h1 : isCommentLine (dropLeadingWs l) = true) :
    parseLinesAux cfg (l :: rest) n st = parseLinesAux cfg rest (n + 1) st := by
  conv_lhs => unfold parseLinesAux
  simp [h0, h1]

/-- Section-header line: a fresh section is stored under the transformed
name, which becomes current. -/
theorem step_header (cfg : Config) (l : Str) (rest : List Str) (n : Nat) (st : PState)
    (hd : Str)
    (h0 : dropLeadingWs l ≠ []) (h1 : isCommentLine (dropLeadingWs l) = false)
    (h2 : sectionCapture (dropLeadingWs l) = some hd) :
    parseLinesAux cfg (l :: rest) n st =
      parseLinesAux cfg rest (n + 1)
        ⟨setAssoc st.store (applyTransform cfg.transform hd) [],
         some (applyTransform cfg.transform hd), st.events⟩ := by
  conv_lhs => unfold parseLinesAux
  simp [h0, h1, h2]

/-- Data line before any header: `MissingSectionHeaderError`. -/
theorem step_missing (cfg : Config) (l : Str) (rest : List Str) (n : Nat) (st : PState)
    (h0 : dropLeadingWs l ≠ []) (h1 : isCommentLine (dropLeadingWs l) = false)
    (h2 : sectionCapture (dropLeadingWs l) = none) (h3 : st.curSec = none) :
    parseLinesAux cfg (l :: rest) n st =
      Except.error (PError.missingSectionHeader cfg.file n (dropLeadingWs l)) := by
  conv_lhs => unfold parseLinesAux
  simp [h0, h1, h2, h3]

/-- Key/value line inside a section: the transformed key is stored with the
untransformed value in the current section. -/
theorem step_key (cfg : Config) (l : Str) (rest : List Str) (n : Nat) (st : PState)
    (s : Str) (kv : Str × Str)
    (h0 : dropLeadingWs l ≠ []) (h1 : isCommentLine (dropLeadingWs l) = false)
    (h2 : sectionCapture (dropLeadingWs l) = none) (h3 : st.curSec = some s)
    (h4 : keyExec (dropLeadingWs l) = some kv)
    (h5 : kv.1 ≠ []) (h6 : (dropLeadingWs l).head? ≠ some '=') :
    parseLinesAux cfg (l :: rest) n st =
      parseLinesAux cfg rest (n + 1)
        ⟨storeSetKey st.store s (applyTransform cfg.transform kv.1) kv.2,
         some s, st.events⟩ := by
  conv_lhs => unfold parseLinesAux
  simp [h0, h1, h2, h3, h4, h5, h6]

/-- Invalid line inside a section, no key/value match at all. -/
theorem step_invalid_nokey (cfg : Config) (l : Str) (rest : List Str) (n : Nat) (st : PState)
    (s : Str)
    (h0 : dropLeadingWs l ≠ []) (h1 : isCommentLine (dropLeadingWs l) = false)
    (h2 : sectionCapture (dropLeadingWs l) = none) (h3 : st.curSec = some s)
    (h4 : keyExec (dropLeadingWs l) = none) :
    parseLinesAux cfg (l :: rest) n st =
      (if cfg.onInvalidLine then
        parseLinesAux cfg rest (n + 1)
          ⟨st.store, st.curSec, st.events ++ [(cfg.file, n, dropLeadingWs l)]⟩
      else Except.error (PError.parseError cfg.file n (dropLeadingWs l))) := by
  conv_lhs => unfold parseLinesAux
  simp [h0, h1, h2, h3, h4]

/-- Invalid line inside a section: the key/value shape matched but the key
is empty or the line starts with `=`. -/
theorem step_invalid_badkey (cfg : Config) (l : Str) (rest : List Str) (n : Nat) (st : PState)
    (s : Str) (kv : Str × Str)
    (h0 : dropLeadingWs l ≠ []) (h1 : isCommentLine (dropLeadingWs l) = false)
    (h2 : sectionCapture (dropLeadingWs l) = none) (h3 : st.curSec = some s)
    (h4 : keyExec (dropLeadingWs l) = some kv)
    (h5 : ¬(kv.1 ≠ [] ∧ (dropLeadingWs l).head? ≠ some '=')) :
    parseLinesAux cfg (l :: rest) n st =
      (if cfg.onInvalidLine then
        parseLinesAux cfg rest (n + 1)
          ⟨st.store, st.curSec, st.events ++ [(cfg.file, n, dropLeadingWs l)]⟩
      else Except.error (PError.parseError cfg.file n (dropLeadingWs l))) := by
  conv_lhs => unfold parseLinesAux
  simp only [h2, h3, h4]
  rw [if_neg h0]
  rw [if_neg (by simp [h1])]
  rw [if_neg h5]

/-- C9: on a store without the named section, `set` returns without error
and leaves the store completely unchanged: it creates no section, stores no
key, and modifies no existing section. -/
theorem c9_set_missing_section_noop (store : Store) (s k v : Str)
    (h : hasSection store s = false) : setKV store s k v = store := by
  unfold setKV
  simp [h]

/-- Witness for C9 at a concrete store and missing section name. -/
theorem c9_witness :
    setKV [(['a'], [(['x'], ['1'])])] ['b'] ['k'] ['v'] = [(['a'], [(['x'], ['1'])])] :=
  c9_set_missing_section_noop [(['a'], [(['x'], ['1'])])] ['b'] ['k'] ['v'] (by decide)

/-- C10: on a store without the named section, `get` returns `undefined`
for every key and for both raw and non-raw mode and never throws, while
`keys` throws `NoSectionError` carrying the section name. -/
theorem c10_get_missing_section (store : Store) (s : Str)
    (h : hasSection store s = false) :
    (∀ k raw, getF store s k raw = Except.ok none) ∧ keysF store s = Except.error s := by
  have hl : lookupAssoc store s = none := by
    unfold hasSection at h
    cases hx : lookupAssoc store s <;> simp [hx] at h ⊢
  constructor
  · intro k raw
    unfold getF
    simp [hl]
  · unfold keysF
    simp [hl]

/-- Witness for C10 at a concrete store and missing section name. -/
theorem c10_witness :
    getF [(['a'], [(['x'], ['1'])])] ['b'] ['k'] true = Except.ok none ∧
    getF [(['a'], [(['x'], ['1'])])] ['b'] ['k'] false = Except.ok none ∧
    keysF [(['a'], [(['x'], ['1'])])] ['b'] = Except.error ['b'] :=
  ⟨(c10_get_missing_section [(['a'], [(['x'], ['1'])])] ['b'] (by decide)).1 ['k'] true,
   (c10_get_missing_section [(['a'], [(['x'], ['1'])])] ['b'] (by decide)).1 ['k'] false,
   (c10_get_missing_section [(['a'], [(['x'], ['1'])])] ['b'] (by decide)).2⟩

/-- C7: `getInt` on an existing section whose key is absent coerces the
missing value (`parseInt(undefined, 10)`) and returns `NaN`; `getInt` on a
missing section returns `undefined`; neither case throws.  Radix `0`
models the omitted radix of the plain `getInt(section, key)` call, which
the source defaults to 10. -/
theorem c7_getInt_missing (store : Store) (s k : Str) :
    (hasSection store s = true → hasKey store s k = false →
      getIntF store s k 0 = NumResult.nan) ∧
    (hasSection store s = false → ∀ radix, getIntF store s k radix = NumResult.undef) := by
  constructor
  · intro hs hk
    obtain ⟨sec, hsec⟩ : ∃ sec, lookupAssoc store s = some sec := by
      unfold hasSection at hs
      cases hx : lookupAssoc store s <;> simp [hx] at hs ⊢
    have hkk : lookupAssoc sec k = none := by
      unfold hasKey at hk
      rw [hsec] at hk
      cases hx : lookupAssoc sec k <;> simp [hx] at hk ⊢
    unfold getIntF
    simp only [hsec, hkk]
    decide
  · intro hs radix
    have hl : lookupAssoc store s = none := by
      unfold hasSection at hs
      cases hx : lookupAssoc store s <;> simp [hx] at hs ⊢
    unfold getIntF
    simp only [hl]

/-- Witness for C7 at a concrete store. -/
theorem c7_witness :
    getIntF [(['a'], [(['x'], ['1'])])] ['a'] ['k'] 0 = NumResult.nan ∧
    getIntF [(['a'], [(['x'], ['1'])])] ['b'] ['k'] 10 = NumResult.undef :=
  ⟨(c7_getInt_missing [(['a'], [(['x'], ['1'])])] ['a'] ['k']).1 (by decide) (by decide),
   (c7_getInt_missing [(['a'], [(['x'], ['1'])])] ['b'] ['k']).2 (by decide) 10⟩

/-- Characters below the surrogate range survive the `Char.ofNat`
round-trip. -/
theorem toNat_ofNat_small (n : Nat) (h : n < 55296) : (Char.ofNat n).toNat = n := by
  unfold Char.ofNat
  rw [dif_pos (Or.inl h)]
  simp [Char.ofNatAux, Char.toNat, UInt32.toNat, UInt32.ofNatCore]

/-- Lower-casing a character is idempotent. -/
theorem lowChar_idem (c : Char) : lowChar (lowChar c) = lowChar c := by
  unfold lowChar Char.toLower
  by_cases h : c.toNat ≥ 65 ∧ c.toNat ≤ 90
  · rw [if_pos h]
    have h2 : (Char.ofNat (c.toNat + 32)).toNat = c.toNat + 32 :=
      toNat_ofNat_small _ (by omega)
    rw [if_neg (by rw [h2]; omega)]
  · rw [if_neg h, if_neg h]

/-- Upper-casing a character is idempotent. -/
theorem upChar_idem (c : Char) : upChar (upChar c) = upChar c := by
  unfold upChar Char.toUpper
  by_cases h : c.toNat ≥ 97 ∧ c.toNat ≤ 122
  · rw [if_pos h]
    have h2 : (Char.ofNat (c.toNat - 32)).toNat = c.toNat - 32 :=
      toNat_ofNat_small _ (by omega)
    rw [if_neg (by rw [h2]; omega)]
  · rw [if_neg h, if_neg h]

/-- The configured case transform is idempotent on names. -/
theorem applyTransform_idem (t : Transform) (x : Str) :
    applyTransform t (applyTransform t x) = applyTransform t x := by
  cases t with
  | none => rfl
  | lower =>
    unfold applyTransform
    induction x with
    | nil => rfl
    | cons c cs ih => simp only [List.map_cons, List.cons.injEq] at ih ⊢; exact ⟨lowChar_idem c, ih⟩
  | upper =>
    unfold applyTransform
    induction x with
    | nil => rfl
    | cons c cs ih => simp only [List.map_cons, List.cons.injEq] at ih ⊢; exact ⟨upChar_idem c, ih⟩

/-- Every entry of an updated association list is the new pair or an old
entry. -/
theorem setAssoc_mem {α : Type} (m : List (Str × α)) (k : Str) (v : α) :
    ∀ x ∈ setAssoc m k v, x = (k, v) ∨ x ∈ m := by
  induction m with
  | nil => intro x hx; simp [setAssoc] at hx; left; exact hx
  | cons p rest ih =>
    intro x hx
    obtain ⟨k', v'⟩ := p
    unfold setAssoc at hx
    by_cases h : k' = k
    · rw [if_pos h] at hx
      rcases List.mem_cons.mp hx with h1 | h1
      · left; exact h1
      · right; exact List.mem_cons_of_mem _ h1
    · rw [if_neg h] at hx
      rcases List.mem_cons.mp hx with h1 | h1
      · right; exact h1 ▸ List.mem_cons_self _ _
      · rcases ih x h1 with h2 | h2
        · left; exact h2
        · right; exact List.mem_cons_of_mem _ h2

/-- Every entry of a store after a key assignment is an old entry or an old
entry whose section got the key set. -/
theorem storeSetKey_mem (store : Store) (s k v : Str) :
    ∀ x ∈ storeSetKey store s k v, x ∈ store ∨
      ∃ y ∈ store, x = (y.1, setAssoc y.2 k v) := by
  induction store with
  | nil => intro x hx; simp [storeSetKey] at hx
  | cons p rest ih =>
    intro x hx
    obtain ⟨s', sec⟩ := p
    unfold storeSetKey at hx
    by_cases h : s' = s
    · rw [if_pos h] at hx
      rcases List.mem_cons.mp hx with h1 | h1
      · right; exact ⟨(s', sec), List.mem_cons_self _ _, h1⟩
      · left; exact List.mem_cons_of_mem _ h1
    · rw [if_neg h] at hx
      rcases List.mem_cons.mp hx with h1 | h1
      · left; exact h1 ▸ List.mem_cons_self _ _
      · rcases ih x h1 with h2 | h2
        · left; exact List.mem_cons_of_mem _ h2
        · obtain ⟨y, hy, he⟩ := h2
          right; exact ⟨y, List.mem_cons_of_mem _ hy, he⟩

/-- Inversion of one successful parser step: the tail is parsed from a
state that is unchanged up to events, or extended by a fresh section under
the transformed header name, or extended by one transformed key with its
untransformed value in the current section. -/
theorem parseStep_ok (cfg : Config) (l : Str) (rest : List Str) (n : Nat) (st st' : PState)
    (he : parseLinesAux cfg (l :: rest) n st = Except.ok st') :
    ∃ st1, parseLinesAux cfg rest (n + 1) st1 = Except.ok st' ∧
      ((st1.store = st.store ∧ st1.curSec = st.curSec) ∨
       (∃ hd, dropLeadingWs l ≠ [] ∧ isCommentLine (dropLeadingWs l) = false ∧
         sectionCapture (dropLeadingWs l) = some hd ∧
         st1 = ⟨setAssoc st.store (applyTransform cfg.transform hd) [],
                some (applyTransform cfg.transform hd), st.events⟩) ∨
       (∃ s kv, dropLeadingWs l ≠ [] ∧ isCommentLine (dropLeadingWs l) = false ∧
         sectionCapture (dropLeadingWs l) = none ∧ st.curSec = some s ∧
         keyExec (dropLeadingWs l) = some kv ∧ kv.1 ≠ [] ∧
         (dropLeadingWs l).head? ≠ some '=' ∧
         st1 = ⟨storeSetKey st.store s (applyTransform cfg.transform kv.1) kv.2,
                some s, st.events⟩)) := by
  by_cases hB : dropLeadingWs l = []
  · rw [step_blank cfg l rest n st hB] at he
    exact ⟨st, he, Or.inl ⟨rfl, rfl⟩⟩
  by_cases hC : isCommentLine (dropLeadingWs l) = true
  · rw [step_comment cfg l rest n st hB hC] at he
    exact ⟨st, he, Or.inl ⟨rfl, rfl⟩⟩
  rw [Bool.not_eq_true] at hC
  cases hS : sectionCapture (dropLeadingWs l) with
  | some hd =>
    rw [step_header cfg l rest n st hd hB hC hS] at he
    exact ⟨_, he, Or.inr (Or.inl ⟨hd, hB, hC, rfl, rfl⟩)⟩
  | none =>
    cases hcur : st.curSec with
    | none =>
      rw [step_missing cfg l rest n st hB hC hS hcur] at he
      exact absurd he (by simp)
    | some s =>
      cases hke : keyExec (dropLeadingWs l) with
      | some kv =>
        by_cases hg : kv.1 ≠ [] ∧ (dropLeadingWs l).head? ≠ some '='
        · rw [step_key cfg l rest n st s kv hB hC hS hcur hke hg.1 hg.2] at he
          exact ⟨_, he, Or.inr (Or.inr ⟨s, kv, hB, hC, rfl, rfl, rfl, hg.1, hg.2, rfl⟩)⟩
        · rw [step_invalid_badkey cfg l rest n st s kv hB hC hS hcur hke hg] at he
          by_cases hcb : cfg.onInvalidLine = true
          · rw [if_pos hcb] at he
            exact ⟨_, he, Or.inl ⟨rfl, hcur⟩⟩
          · rw [if_neg hcb] at he
            exact absurd he (by simp)
      | none =>
        rw [step_invalid_nokey cfg l rest n st s hB hC hS hcur hke] at he
        by_cases hcb : cfg.onInvalidLine = true
        · rw [if_pos hcb] at he
          exact ⟨_, he, Or.inl ⟨rfl, hcur⟩⟩
        · rw [if_neg hcb] at he
          exact absurd he (by simp)

/-- C4: a line after a section header that matches none of the
blank/comment/header/key-value shapes is handled by the invalid-line
policy: with an `onInvalidLine` callback configured, the callback record
with exactly the `{file, lineNumber, line}` triple is appended and parsing
continues with the next line; without one, parsing aborts immediately with
a `ParseError` carrying the same triple. -/
theorem c4_invalid_line_policy (cfg : Config) (l : Str) (rest : List Str) (n : Nat)
    (st : PState) (s : Str)
    (h0 : dropLeadingWs l ≠ []) (h1 : isCommentLine (dropLeadingWs l) = false)
    (h2 : sectionCapture (dropLeadingWs l) = none) (h3 : st.curSec = some s)
    (h4 : ∀ kv, keyExec (dropLeadingWs l) = some kv →
      kv.1 = [] ∨ (dropLeadingWs l).head? = some '=') :
    (cfg.onInvalidLine = true →
      parseLinesAux cfg (l :: rest) n st =
        parseLinesAux cfg rest (n + 1)
          ⟨st.store, st.curSec, st.events ++ [(cfg.file, n, dropLeadingWs l)]⟩) ∧
    (cfg.onInvalidLine = false →
      parseLinesAux cfg (l :: rest) n st =
        Except.error (PError.parseError cfg.file n (dropLeadingWs l))) := by
  cases hke : keyExec (dropLeadingWs l) with
  | none =>
    rw [step_invalid_nokey cfg l rest n st s h0 h1 h2 h3 hke]
    constructor <;> intro hc <;> simp [hc]
  | some kv =>
    have h5 : ¬(kv.1 ≠ [] ∧ (dropLeadingWs l).head? ≠ some '=') := by
      intro hcontra
      rcases h4 kv hke with h | h
      · exact hcontra.1 h
      · exact hcontra.2 h
    rw [step_invalid_badkey cfg l rest n st s kv h0 h1 h2 h3 hke h5]
    constructor <;> intro hc <;> simp [hc]

/-- Witness for C4: one concrete run with a callback configured (the
record is appended and parsing continues) and one without (abort with
`ParseError`). -/
theorem c4_witness :
    parseLinesAux ⟨['f'], Transform.none, true⟩ [['?', '?'], ['k', '=', '1']] 3
        ⟨[(['a'], [])], some ['a'], []⟩ =
      parseLinesAux ⟨['f'], Transform.none, true⟩ [['k', '=', '1']] 4
        ⟨[(['a'], [])], some ['a'], [(['f'], 3, ['?', '?'])]⟩ ∧
    parseLinesAux ⟨['f'], Transform.none, false⟩ [['?', '?'], ['k', '=', '1']] 3
        ⟨[(['a'], [])], some ['a'], []⟩ =
      Except.error (PError.parseError ['f'] 3 ['?', '?']) :=
  ⟨(c4_invalid_line_policy ⟨['f'], Transform.none, true⟩ ['?', '?'] [['k', '=', '1']] 3
      ⟨[(['a'], [])], some ['a'], []⟩ ['a'] (by decide) (by decide) (by decide) rfl
      (by intro kv hkv
          rw [show keyExec (dropLeadingWs ['?', '?']) = none from by decide] at hkv
          exact Option.noConfusion hkv)).1 rfl,
   (c4_invalid_line_policy ⟨['f'], Transform.none, false⟩ ['?', '?'] [['k', '=', '1']] 3
      ⟨[(['a'], [])], some ['a'], []⟩ ['a'] (by decide) (by decide) (by decide) rfl
      (by intro kv hkv
          rw [show keyExec (dropLeadingWs ['?', '?']) = none from by decide] at hkv
          exact Option.noConfusion hkv)).2 rfl⟩

/-- Fixed-point property of the names in a parsed store under the
configured transform. -/
def NamesOK (t : Transform) (store : Store) : Prop :=
  ∀ e ∈ store, applyTransform t e.1 = e.1 ∧ ∀ kv ∈ e.2, applyTransform t kv.1 = kv.1

/-- Parsing preserves the fixed-point property of stored names. -/
theorem parse_namesOK (cfg : Config) :
    ∀ (lines : List Str) (n : Nat) (st : PState), NamesOK cfg.transform st.store →
      ∀ st', parseLinesAux cfg lines n st = Except.ok st' →
        NamesOK cfg.transform st'.store := by
  intro lines
  induction lines with
  | nil =>
    intro n st h st' he
    unfold parseLinesAux at he
    cases he
    exact h
  | cons l rest ih =>
    intro n st h st' he
    rcases parseStep_ok cfg l rest n st st' he with ⟨st1, he1, hcase⟩
    rcases hcase with ⟨hst, _⟩ | ⟨hd, _, _, _, hst⟩ | ⟨s, kv, _, _, _, _, _, _, _, hst⟩
    · exact ih (n + 1) st1 (hst ▸ h) st' he1
    · apply ih (n + 1) st1 _ st' he1
      rw [hst]
      intro e hme
      rcases setAssoc_mem st.store (applyTransform cfg.transform hd) [] e hme with h1 | h1
      · rw [h1]
        exact ⟨applyTransform_idem _ _, by intro kv hkv; simp at hkv⟩
      · exact h e h1
    · apply ih (n + 1) st1 _ st' he1
      rw [hst]
      intro e hme
      rcases storeSetKey_mem st.store s (applyTransform cfg.transform kv.1) kv.2 e hme
        with h1 | ⟨y, hy, h1⟩
      · exact h e h1
      · rw [h1]
        refine ⟨(h y hy).1, ?_⟩
        intro kv' hkv'
        rcases setAssoc_mem y.2 (applyTransform cfg.transform kv.1) kv.2 kv' hkv' with h2 | h2
        · rw [h2]
          exact applyTransform_idem _ _
        · exact (h y hy).2 kv' h2

/-- C6: the configured transform is applied uniformly at parse time: a
header line stores a fresh section under the transformed header name, a
key/value line stores the transformed key with the value exactly as
extracted (values are never altered), the `'none'` transform is the
identity, and consequently every section name and key name of a parsed
store is a fixed point of the configured transform. -/
theorem c6_transform_uniform (cfg : Config) :
    (∀ l rest n st hd, dropLeadingWs l ≠ [] → isCommentLine (dropLeadingWs l) = false →
      sectionCapture (dropLeadingWs l) = some hd →
      parseLinesAux cfg (l :: rest) n st =
        parseLinesAux cfg rest (n + 1)
          ⟨setAssoc st.store (applyTransform cfg.transform hd) [],
           some (applyTransform cfg.transform hd), st.events⟩) ∧
    (∀ l rest n st s kv, dropLeadingWs l ≠ [] → isCommentLine (dropLeadingWs l) = false →
      sectionCapture (dropLeadingWs l) = none → st.curSec = some s →
      keyExec (dropLeadingWs l) = some kv → kv.1 ≠ [] →
      (dropLeadingWs l).head? ≠ some '=' →
      parseLinesAux cfg (l :: rest) n st =
        parseLinesAux cfg rest (n + 1)
          ⟨storeSetKey st.store s (applyTransform cfg.transform kv.1) kv.2,
           some s, st.events⟩) ∧
    (∀ x, applyTransform Transform.none x = x) ∧
    (∀ lines st', parseLines cfg lines = Except.ok st' →
      ∀ e ∈ st'.store, applyTransform cfg.transform e.1 = e.1 ∧
        ∀ kv ∈ e.2, applyTransform cfg.transform kv.1 = kv.1) := by
  refine ⟨?_, ?_, ?_, ?_⟩
  · intro l rest n st hd h0 h1 h2
    exact step_header cfg l rest n st hd h0 h1 h2
  · intro l rest n st s kv h0 h1 h2 h3 h4 h5 h6
    exact step_key cfg l rest n st s kv h0 h1 h2 h3 h4 h5 h6
  · intro x
    rfl
  · intro lines st' he
    exact parse_namesOK cfg lines 0 ⟨[], none, []⟩ (by intro e hme; simp at hme) st' he

/-- Witness for C6: the step equations at a concrete header line and a
concrete key line under the `upper` transform, the identity of the `none`
transform on a concrete name, and the fixed-point property on a concrete
parse. -/
theorem c6_witness :
    parseLinesAux ⟨[], Transform.upper, false⟩ [['[', 'a', ']']] 0 ⟨[], none, []⟩ =
      parseLinesAux ⟨[], Transform.upper, false⟩ [] 1 ⟨[(['A'], [])], some ['A'], []⟩ ∧
    parseLinesAux ⟨[], Transform.upper, false⟩ [['k', '=', 'v']] 1
        ⟨[(['A'], [])], some ['A'], []⟩ =
      parseLinesAux ⟨[], Transform.upper, false⟩ [] 2
        ⟨[(['A'], [(['K'], ['v'])])], some ['A'], []⟩ ∧
    applyTransform Transform.none ['a', 'B'] = ['a', 'B'] ∧
    (∀ e ∈ [(['A'], [(['K'], ['v'])])],
      applyTransform Transform.upper e.1 = e.1 ∧
      ∀ kv ∈ e.2, applyTransform Transform.upper kv.1 = kv.1) := by
  refine ⟨?_, ?_, ?_, ?_⟩
  · exact (c6_transform_uniform ⟨[], Transform.upper, false⟩).1 ['[', 'a', ']'] [] 0
      ⟨[], none, []⟩ ['a'] (by decide) (by decide) (by decide)
  · exact (c6_transform_uniform ⟨[], Transform.upper, false⟩).2.1 ['k', '=', 'v'] [] 1
      ⟨[(['A'], [])], some ['A'], []⟩ ['A'] (['k'], ['v']) (by decide) (by decide)
      (by decide) rfl (by decide) (by decide) (by decide)
  · exact (c6_transform_uniform ⟨[], Transform.upper, false⟩).2.2.1 ['a', 'B']
  · exact (c6_transform_uniform ⟨[], Transform.upper, false⟩).2.2.2
      [['[', 'a', ']'], ['k', '=', 'v']] ⟨[(['A'], [(['K'], ['v'])])], some ['A'], []⟩
      (by decide)

/-- Blank and comment lines are skipped without any state change, only the
line counter advances. -/
theorem skip_many (cfg : Config) (more : List Str) :
    ∀ (pre : List Str) (n : Nat) (st : PState),
      (∀ l' ∈ pre, dropLeadingWs l' = [] ∨ isCommentLine (dropLeadingWs l') = true) →
      parseLinesAux cfg (pre ++ more) n st = parseLinesAux cfg more (n + pre.length) st := by
  intro pre
  induction pre with
  | nil =>
    intro n st _
    simp
  | cons p pre ih =>
    intro n st h
    have hstep : parseLinesAux cfg ((p :: pre) ++ more) n st =
        parseLinesAux cfg (pre ++ more) (n + 1) st := by
      rcases h p (List.mem_cons_self _ _) with hp | hp
      · exact step_blank cfg p _ n st hp
      · refine step_comment cfg p _ n st ?_ hp
        intro hnil
        rw [hnil] at hp
        simp [isCommentLine] at hp
    rw [hstep, ih (n + 1) st (fun l' hl' => h l' (List.mem_cons_of_mem _ hl'))]
    rw [List.length_cons, show n + 1 + pre.length = n + (pre.length + 1) from by omega]

/-- C3: any line that is not blank, not a comment and not a section header,
appearing before the first section header (i.e. preceded only by blank and
comment lines), makes parsing fail with `MissingSectionHeaderError` carrying
the file identifier, the line number and the line text — never with
`ParseError`. -/
theorem c3_missing_section_header (cfg : Config) (pre : List Str) (l : Str) (rest : List Str)
    (hpre : ∀ l' ∈ pre, dropLeadingWs l' = [] ∨ isCommentLine (dropLeadingWs l') = true)
    (h0 : dropLeadingWs l ≠ []) (h1 : isCommentLine (dropLeadingWs l) = false)
    (h2 : sectionCapture (dropLeadingWs l) = none) :
    parseLines cfg (pre ++ l :: rest) =
      Except.error (PError.missingSectionHeader cfg.file pre.length (dropLeadingWs l)) := by
  unfold parseLines
  rw [skip_many cfg (l :: rest) pre 0 _ hpre]
  rw [step_missing cfg l rest (0 + pre.length) _ h0 h1 h2 rfl]
  rw [Nat.zero_add]

/-- Witness for C3 at a concrete document: a comment, a blank line, then a
data line with no header seen yet. -/
theorem c3_witness :
    parseLines ⟨['f'], Transform.none, false⟩
        ([[';', 'c'], [' ']] ++ ['d', 'a', 't', 'a'] :: [['[', 'a', ']']]) =
      Except.error (PError.missingSectionHeader ['f'] 2 ['d', 'a', 't', 'a']) :=
  c3_missing_section_header ⟨['f'], Transform.none, false⟩ [[';', 'c'], [' ']]
    ['d', 'a', 't', 'a'] [['[', 'a', ']']] (by decide) (by decide) (by decide) (by decide)

/-- A successful bracket scan splits the string at its first `]`. -/
theorem takeToRBracket_sound (l : Str) :
    ∀ p, takeToRBracket l = some p → l = p.1 ++ ']' :: p.2 ∧ ']' ∉ p.1 := by
  induction l with
  | nil => intro p h; simp [takeToRBracket] at h
  | cons c rest ih =>
    intro p h
    rw [takeToRBracket] at h
    by_cases hc : c = ']'
    · rw [if_pos hc] at h
      injection h with h2
      rw [← h2, hc]
      constructor <;> simp
    · rw [if_neg hc] at h
      cases htr : takeToRBracket rest with
      | none => rw [htr] at h; exact Option.noConfusion h
      | some q =>
        rw [htr] at h
        simp only at h
        injection h with h2
        obtain ⟨hq1, hq2⟩ := ih q htr
        rw [← h2]
        constructor
        · simp only [List.cons_append, List.cons.injEq]
          exact ⟨trivial, hq1⟩
        · intro hmem
          rcases List.mem_cons.mp hmem with hm | hm
          · exact hc hm.symm
          · exact hq2 hm

/-- Bracket scan of a string whose first `]` is at a known position. -/
theorem takeToRBracket_build (a r : Str) (hni : ']' ∉ a) :
    takeToRBracket (a ++ ']' :: r) = some (a, r) := by
  induction a with
  | nil => simp [takeToRBracket]
  | cons c a' ih =>
    have hc : c ≠ ']' := fun hcontra => hni (hcontra ▸ List.mem_cons_self _ _)
    rw [List.cons_append, takeToRBracket, if_neg hc]
    rw [ih (fun hm => hni (List.mem_cons_of_mem _ hm))]

/-- A failed bracket scan means the string has no `]` at all. -/
theorem takeToRBracket_none (l : Str) (h : takeToRBracket l = none) : ']' ∉ l := by
  induction l with
  | nil => simp
  | cons c rest ih =>
    rw [takeToRBracket] at h
    by_cases hc : c = ']'
    · rw [if_pos hc] at h; exact Option.noConfusion h
    · rw [if_neg hc] at h
      intro hmem
      rcases List.mem_cons.mp hmem with hm | hm
      · exact hc hm.symm
      · cases htr : takeToRBracket rest with
        | none => exact ih htr hm
        | some q => rw [htr] at h; simp only at h; exact Option.noConfusion h

/-- A bracket token: a `[`, one or more non-`]` characters, then `]`,
occurring anywhere in the string.  This is the shape the unanchored
`SECTION` pattern actually searches for. -/
def HasTok (x : Str) : Prop :=
  ∃ a b c, x = a ++ '[' :: (b ++ ']' :: c) ∧ b ≠ [] ∧ ']' ∉ b

/-- The `SECTION` pattern matches a line exactly when the line contains a
bracket token anywhere. -/
theorem sectionCapture_isSome_iff (l : Str) :
    (sectionCapture l).isSome = true ↔ HasTok l := by
  induction l with
  | nil =>
    simp only [sectionCapture, Option.isSome_none, Bool.false_eq_true, false_iff]
    rintro ⟨a, b, c, heq, -, -⟩
    exact absurd heq.symm (by simp)
  | cons x rest ih =>
    rw [sectionCapture]
    by_cases hx : x = '['
    · rw [if_pos hx]
      cases htr : takeToRBracket rest with
      | none =>
        simp only
        have hnotin : ']' ∉ rest := takeToRBracket_none rest htr
        simp only [Option.isSome_none, Bool.false_eq_true, false_iff]
        rintro ⟨a, b, c, heq, hbne, hbni⟩
        have hmem : (']' : Char) ∈ x :: rest := by
          rw [heq]
          simp
        rcases List.mem_cons.mp hmem with hm | hm
        · rw [hx] at hm; exact absurd hm (by decide)
        · exact hnotin hm
      | some p =>
        simp only
        by_cases hp : p.1 = []
        · rw [if_pos hp]
          obtain ⟨hr, -⟩ := takeToRBracket_sound rest p htr
          rw [hp, List.nil_append] at hr
          rw [ih]
          constructor
          · rintro ⟨a, b, c, heq, hbne, hbni⟩
            exact ⟨x :: a, b, c, by rw [List.cons_append, heq], hbne, hbni⟩
          · rintro ⟨a, b, c, heq, hbne, hbni⟩
            cases a with
            | nil =>
              rw [List.nil_append] at heq
              injection heq with h1 h2
              cases b with
              | nil => exact absurd rfl hbne
              | cons y b' =>
                rw [hr] at h2
                rw [List.cons_append] at h2
                injection h2 with h3 h4
                exact absurd h3.symm (fun hy => hbni (hy ▸ List.mem_cons_self _ _))
            | cons z a' =>
              rw [List.cons_append] at heq
              injection heq with h1 h2
              exact ⟨a', b, c, h2, hbne, hbni⟩
        · rw [if_neg hp]
          simp only [Option.isSome_some, true_iff]
          obtain ⟨hr, hni⟩ := takeToRBracket_sound rest p htr
          exact ⟨[], p.1, p.2, by rw [List.nil_append, hx, hr], hp, hni⟩
    · rw [if_neg hx]
      rw [ih]
      constructor
      · rintro ⟨a, b, c, heq, hbne, hbni⟩
        exact ⟨x :: a, b, c, by rw [List.cons_append, heq], hbne, hbni⟩
      · rintro ⟨a, b, c, heq, hbne, hbni⟩
        cases a with
        | nil =>
          rw [List.nil_append] at heq
          injection heq with h1 h2
          exact absurd h1 hx
        | cons z a' =>
          rw [List.cons_append] at heq
          injection heq with h1 h2
          exact ⟨a', b, c, h2, hbne, hbni⟩

/-- C2 counterexample: inside a section, the key/value-shaped line `k=[b]`
is classified as a section header (the unanchored `SECTION` pattern finds
the token `[b]` in the value part), so parsing creates a section `b`
instead of storing key `k` in section `a`, refuting the claim that only
whole-line bracket forms are headers. -/
theorem c2_counterexample :
    parseLines ⟨[], Transform.none, false⟩
        [['[', 'a', ']'], ['k', '=', '[', 'b', ']']] =
      Except.ok ⟨[(['a'], []), (['b'], [])], some ['b'], []⟩ ∧
    hasKey [(['a'], []), (['b'], [])] ['a'] ['k'] = false ∧
    sectionCapture ['k', '=', '[', 'b', ']'] = some ['b'] := by
  decide

/-- C2 amended: a line is classified as a section header precisely when it
contains a bracket token `[` + one or more non-`]` characters + `]`
anywhere in the line (with arbitrary text around it), because the
unanchored `SECTION` pattern that `parseLines` consults before the
key/value shape searches the whole line. -/
theorem c2_header_iff (l : Str) :
    (sectionCapture l).isSome = true ↔
      ∃ a b c, l = a ++ '[' :: (b ++ ']' :: c) ∧ b ≠ [] ∧ ']' ∉ b :=
  sectionCapture_isSome_iff l

/-- Delimiter search on a string whose first delimiter is at a known
position. -/
theorem splitAtFirstDelim_build (k : Str) (d : Char) (rest : Str)
    (hnd : ∀ c ∈ k, isDelim c = false) (hd : isDelim d = true) :
    splitAtFirstDelim (k ++ d :: rest) = some (k, d, rest) := by
  induction k with
  | nil => simp [splitAtFirstDelim, hd]
  | cons c k' ih =>
    have hc : isDelim c = false := hnd c (List.mem_cons_self _ _)
    rw [List.cons_append, splitAtFirstDelim]
    rw [if_neg (by rw [hc]; exact Bool.false_ne_true)]
    rw [ih (fun c' hm => hnd c' (List.mem_cons_of_mem _ hm))]

/-- A line kept whole by the leading strip has a non-white-space head. -/
theorem keep_head_not_ws (c : Char) (k : Str) (h : dropLeadingWs (c :: k) = c :: k) :
    isWs c = false := by
  cases hc : isWs c with
  | false => rfl
  | true =>
    exfalso
    rw [dropLeadingWs, List.dropWhile_cons, if_pos hc] at h
    have hlen := congrArg List.length h
    have hle := (List.dropWhile_sublist (l := k) isWs).length_le
    simp only [List.length_cons] at hlen
    omega

/-- Leading strip keeps a string whose head is not white space. -/
theorem dropLeadingWs_cons_keep (c : Char) (l : Str) (h : isWs c = false) :
    dropLeadingWs (c :: l) = c :: l := by
  rw [dropLeadingWs, List.dropWhile_cons, if_neg (by rw [h]; exact Bool.false_ne_true)]

/-- A line with no `[` never matches the `SECTION` pattern. -/
theorem sectionCapture_none_of_no_lb (x : Str) (h : '[' ∉ x) : sectionCapture x = none := by
  induction x with
  | nil => rfl
  | cons c rest ih =>
    have hc : c ≠ '[' := fun hcontra => h (hcontra ▸ List.mem_cons_self _ _)
    rw [sectionCapture, if_neg hc]
    exact ih (fun hm => h (List.mem_cons_of_mem _ hm))

/-- C1 amended: parsing a single-section document containing the line
`k` + delimiter + `v` stores the key with value `dropLeadingWs v`, i.e.
everything after the first delimiter with its leading white space
REMOVED (the `\s*` after `[=:]` in the `KEY` pattern), not `v` untrimmed;
trailing white space of `v` is preserved.  The hypotheses pin the
key/value reading of the line: `k` is non-empty, carries no surrounding
white space of its own, contains no delimiter, does not look like a
comment, and neither side contains a `[` (which could make the unanchored
`SECTION` pattern fire, see C2). -/
theorem c1_value_left_trimmed (cfg : Config) (k v : Str) (d : Char)
    (hcfg : cfg.transform = Transform.none)
    (hk1 : k ≠ []) (hk2 : dropLeadingWs k = k) (hk3 : dropTrailingWs k = k)
    (hk4 : ∀ c ∈ k, isDelim c = false) (hk5 : isCommentLine k = false)
    (hk6 : '[' ∉ k) (hv6 : '[' ∉ v) (hd : isDelim d = true) :
    parseLines cfg [['[', 's', ']'], k ++ d :: v] =
      Except.ok ⟨[(['s'], [(k, dropLeadingWs v)])], some ['s'], []⟩ := by
  obtain ⟨c, k', rfl⟩ : ∃ c k', k = c :: k' := by
    cases k with
    | nil => exact absurd rfl hk1
    | cons c k' => exact ⟨c, k', rfl⟩
  have hcws : isWs c = false := keep_head_not_ws c k' hk2
  have hline : dropLeadingWs ((c :: k') ++ d :: v) = (c :: k') ++ d :: v := by
    rw [List.cons_append]
    exact dropLeadingWs_cons_keep c (k' ++ d :: v) hcws
  have hd_ne_lb : d ≠ '[' := by
    intro hcontra
    rw [hcontra] at hd
    exact absurd hd (by decide)
  have hno_lb : '[' ∉ (c :: k') ++ d :: v := by
    intro hm
    rcases List.mem_append.mp hm with hm | hm
    · exact hk6 hm
    · rcases List.mem_cons.mp hm with hm | hm
      · exact hd_ne_lb hm.symm
      · exact hv6 hm
  have hsec : sectionCapture (dropLeadingWs ((c :: k') ++ d :: v)) = none := by
    rw [hline]
    exact sectionCapture_none_of_no_lb _ hno_lb
  have hkey : keyExec (dropLeadingWs ((c :: k') ++ d :: v)) =
      some (c :: k', dropLeadingWs v) := by
    rw [hline]
    unfold keyExec
    rw [List.cons_append, dropLeadingWs_cons_keep c (k' ++ d :: v) hcws, ← List.cons_append]
    rw [splitAtFirstDelim_build (c :: k') d v hk4 hd]
    simp only
    rw [hk3]
  have hcomment : isCommentLine (dropLeadingWs ((c :: k') ++ d :: v)) = false := by
    rw [hline]
    simp only [List.cons_append, isCommentLine]
    simpa [isCommentLine] using hk5
  have hhead : (dropLeadingWs ((c :: k') ++ d :: v)).head? ≠ some '=' := by
    rw [hline]
    intro hcontra
    rw [List.cons_append, List.head?_cons] at hcontra
    injection hcontra with hc2
    have hcd := hk4 c (List.mem_cons_self _ _)
    rw [hc2] at hcd
    exact absurd hcd (by decide)
  unfold parseLines
  rw [step_header cfg _ _ 0 _ ['s'] (by decide) (by decide) (by decide)]
  rw [step_key cfg _ _ 1 _ (applyTransform cfg.transform ['s']) (c :: k', dropLeadingWs v)
    (by rw [hline]; simp) hcomment hsec (by rfl) hkey hk1 hhead]
  rw [hcfg]
  unfold parseLinesAux
  simp [storeSetKey, setAssoc, applyTransform]

/-- C1 counterexample: the document `[s]` / `k= v` (one space after the
delimiter) stores the value `v`, not ` v`, so the leading white space of
the value is NOT preserved. -/
theorem c1_counterexample :
    parseLines ⟨[], Transform.none, false⟩ [['[', 's', ']'], ['k', '=', ' ', 'v']] =
      Except.ok ⟨[(['s'], [(['k'], ['v'])])], some ['s'], []⟩ ∧
    (['v'] : Str) ≠ [' ', 'v'] := by
  decide

/-- Witness for C1 at a concrete key, delimiter and value. -/
theorem c1_witness :
    parseLines ⟨['f'], Transform.none, false⟩
        [['[', 's', ']'], ['k', '1'] ++ ':' :: [' ', 'w', ' ']] =
      Except.ok ⟨[(['s'], [(['k', '1'], ['w', ' '])])], some ['s'], []⟩ := by
  have h := c1_value_left_trimmed ⟨['f'], Transform.none, false⟩ ['k', '1'] [' ', 'w', ' '] ':'
    rfl (by decide) (by decide) (by decide) (by decide) (by decide) (by decide) (by decide)
    (by decide)
  rw [h]
  rfl

/-- A key that exists in neither the originating section nor the fallback
section resolves to an interpolation error at any fuel and chain. -/
theorem interpGo_lookup_none (store : Store) (base n : Str)
    (h : lookupFallback store base n = none) :
    ∀ f chain, interpGo store base f chain n = none := by
  intro f chain
  cases f with
  | zero => rw [interpGo]
  | succ f' =>
    rw [interpGo]
    by_cases hmem : n ∈ chain
    · rw [if_pos hmem]
    · rw [if_neg hmem, h]

/-- Resolving a segment list fails as soon as one of its references fails
to expand. -/
theorem resolveSegs_ref_none (store : Store) (base : Str) :
    ∀ (segs : List Seg) (f : Nat) (chain : List Str) (nm : Str),
      nm ∈ refNames segs → interpGo store base f chain nm = none →
      resolveSegs store base f chain segs = none := by
  intro segs
  induction segs with
  | nil => intro f chain nm hm; simp [refNames] at hm
  | cons sg segs ih =>
    intro f chain nm hm hnone
    cases sg with
    | lit c =>
      rw [refNames] at hm
      rw [resolveSegs, ih f chain nm hm hnone]
    | ref m =>
      rw [refNames] at hm
      by_cases hnm : nm = m
      · rw [resolveSegs, ← hnm, hnone]
      · rcases List.mem_cons.mp hm with hm1 | hm1
        · exact absurd hm1 hnm
        · rw [resolveSegs]
          cases hgo : interpGo store base f chain m with
          | none => rfl
          | some rv =>
            simp only
            rw [ih f chain nm hm1 hnone]

/-- Every key of a reference-closed cluster (each member references some
member) resolves to an interpolation error at any fuel and chain. -/
theorem interpGo_cycle (store : Store) (base : Str) (C : List Str)
    (hC : ∀ j ∈ C, ∃ n, n ∈ C ∧ refTo store base j n = true) :
    ∀ (f : Nat) (chain : List Str) (j : Str), j ∈ C →
      interpGo store base f chain j = none := by
  intro f
  induction f with
  | zero => intro chain j _; rw [interpGo]
  | succ f' ih =>
    intro chain j hj
    obtain ⟨n, hnC, href⟩ := hC j hj
    unfold refTo at href
    rw [interpGo]
    by_cases hmem : j ∈ chain
    · rw [if_pos hmem]
    · rw [if_neg hmem]
      cases hlook : lookupFallback store base j with
      | none =>
        rw [hlook] at href
      | some v =>
        rw [hlook] at href
        simp only at href
        have hrefs : n ∈ refsOfVal v := of_decide_eq_true href
        simp only
        unfold refsOfVal at hrefs
        cases hlex : lexValue v with
        | none => rw [hlex] at hrefs
        | some segs =>
          rw [hlex] at hrefs
          simp only at hrefs
          simp only
          exact resolveSegs_ref_none store base segs f' (j :: chain) n hrefs (ih _ n hnC)

/-- C8: on a store with a self-referencing or mutually cyclic chain of
placeholders, a non-raw get of any key of the cycle terminates with an
interpolation error (the chain guard fires, or a reference fails first)
rather than looping; and a reference to a key that exists in neither the
originating section nor the fallback section likewise raises an
interpolation error.  The resolver is modelled from the spec, the
interpolation module not being among the sources. -/
theorem c8_interpolation_errors :
    (∀ (store : Store) (base : Str) (C : List Str) (k : Str),
      k ∈ C → (∀ j ∈ C, ∃ n, n ∈ C ∧ refTo store base j n = true) →
      interpolate store base k = none) ∧
    (∀ (store : Store) (base k v n : Str),
      lookupFallback store base k = some v → n ∈ refsOfVal v →
      lookupFallback store base n = none →
      interpolate store base k = none) := by
  constructor
  · intro store base C k hk hC
    exact interpGo_cycle store base C hC (interpFuel store base) [] k hk
  · intro store base k v n hkv hn hnone
    obtain ⟨F, hF⟩ : ∃ F, interpFuel store base = F + 1 :=
      ⟨interpFuel store base - 1, by unfold interpFuel; omega⟩
    unfold interpolate
    rw [hF, interpGo]
    rw [if_neg (List.not_mem_nil k), hkv]
    simp only
    unfold refsOfVal at hn
    cases hlex : lexValue v with
    | none => rw [hlex] at hn
    | some segs =>
      rw [hlex] at hn
      simp only at hn
      simp only
      exact resolveSegs_ref_none store base segs F [k] n hn
        (interpGo_lookup_none store base n hnone F [k])

/-- Witness for C8: the two-key cycle `a = %(b)s`, `b = %(a)s` from the
spec, and a dangling reference `a = %(m)s` with `m` absent from both
scopes. -/
theorem c8_witness :
    interpolate [(['s'], [(['a'], ['%', '(', 'b', ')', 's']),
                          (['b'], ['%', '(', 'a', ')', 's'])])] ['s'] ['a'] = none ∧
    interpolate [(['s'], [(['a'], ['%', '(', 'm', ')', 's'])])] ['s'] ['a'] = none :=
  ⟨c8_interpolation_errors.1
      [(['s'], [(['a'], ['%', '(', 'b', ')', 's']), (['b'], ['%', '(', 'a', ')', 's'])])]
      ['s'] [['a'], ['b']] ['a'] (by decide) (by decide),
   c8_interpolation_errors.2
      [(['s'], [(['a'], ['%', '(', 'm', ')', 's'])])]
      ['s'] ['a'] ['%', '(', 'm', ')', 's'] ['m'] (by decide) (by decide) (by decide)⟩

/-- Dropping a satisfied prefix twice is the same as dropping it once. -/
theorem dropWhileWs_idem (l : Str) :
    List.dropWhile isWs (List.dropWhile isWs l) = List.dropWhile isWs l := by
  induction l with
  | nil => rfl
  | cons c rest ih =>
    rw [List.dropWhile_cons]
    by_cases hc : isWs c = true
    · rw [if_pos hc]; exact ih
    · rw [if_neg hc, List.dropWhile_cons, if_neg hc]

/-- The leading strip is idempotent. -/
theorem dropLeadingWs_idem (l : Str) : dropLeadingWs (dropLeadingWs l) = dropLeadingWs l :=
  dropWhileWs_idem l

/-- The trailing strip is idempotent. -/
theorem dropTrailingWs_idem (l : Str) : dropTrailingWs (dropTrailingWs l) = dropTrailingWs l := by
  unfold dropTrailingWs
  rw [List.reverse_reverse, dropWhileWs_idem]

/-- The leading strip removes a white-space run from the front. -/
theorem dropLeadingWs_decomp (l : Str) :
    ∃ w, l = w ++ dropLeadingWs l ∧ ∀ c ∈ w, isWs c = true := by
  refine ⟨List.takeWhile isWs l, (List.takeWhile_append_dropWhile isWs l).symm, ?_⟩
  intro c hc
  exact List.mem_takeWhile_imp hc

/-- The trailing strip removes a white-space run from the back. -/
theorem dropTrailingWs_decomp (l : Str) :
    ∃ w, l = dropTrailingWs l ++ w ∧ ∀ c ∈ w, isWs c = true := by
  refine ⟨(List.takeWhile isWs l.reverse).reverse, ?_, ?_⟩
  · unfold dropTrailingWs
    rw [← List.reverse_append, List.takeWhile_append_dropWhile isWs l.reverse,
      List.reverse_reverse]
  · intro c hc
    rw [List.mem_reverse] at hc
    exact List.mem_takeWhile_imp hc

/-- The head of a stripped line is never white space. -/
theorem dropLeadingWs_head_not_ws (l : Str) :
    ∀ c rest, dropLeadingWs l = c :: rest → isWs c = false := by
  induction l with
  | nil => intro c rest h; exact absurd h (by simp [dropLeadingWs])
  | cons x l' ih =>
    intro c rest h
    rw [dropLeadingWs, List.dropWhile_cons] at h
    by_cases hx : isWs x = true
    · rw [if_pos hx] at h
      exact ih c rest h
    · rw [if_neg hx] at h
      injection h with h1 h2
      rw [← h1]
      exact Bool.not_eq_true _ |>.mp hx

/-- Characters of a stripped line are characters of the line. -/
theorem dropLeadingWs_subset (l : Str) : ∀ c ∈ dropLeadingWs l, c ∈ l :=
  fun _ hc => (List.dropWhile_sublist isWs).subset hc

/-- A successful delimiter search splits the line at its first delimiter. -/
theorem splitAtFirstDelim_sound (l : Str) :
    ∀ q, splitAtFirstDelim l = some q →
      l = q.1 ++ q.2.1 :: q.2.2 ∧ (∀ c ∈ q.1, isDelim c = false) ∧ isDelim q.2.1 = true := by
  induction l with
  | nil => intro q h; simp [splitAtFirstDelim] at h
  | cons c rest ih =>
    intro q h
    rw [splitAtFirstDelim] at h
    by_cases hc : isDelim c = true
    · rw [if_pos hc] at h
      injection h with h2
      rw [← h2]
      exact ⟨rfl, by intro c' hc'; simp at hc', hc⟩
    · rw [if_neg hc] at h
      cases hsf : splitAtFirstDelim rest with
      | none => rw [hsf] at h; exact Option.noConfusion h
      | some p =>
        rw [hsf] at h
        simp only at h
        injection h with h2
        obtain ⟨hp1, hp2, hp3⟩ := ih p hsf
        rw [← h2]
        refine ⟨by rw [List.cons_append, ← hp1], ?_, hp3⟩
        intro c' hc'
        rcases List.mem_cons.mp hc' with hm | hm
        · rw [hm]; exact Bool.not_eq_true _ |>.mp hc
        · exact hp2 c' hm

/-- The capture of a successful `SECTION` match is non-empty, free of `]`,
and drawn from the characters of the line. -/
theorem sectionCapture_some_facts (l : Str) :
    ∀ nm, sectionCapture l = some nm → nm ≠ [] ∧ ']' ∉ nm ∧ ∀ c ∈ nm, c ∈ l := by
  induction l with
  | nil => intro nm h; exact absurd h (by simp [sectionCapture])
  | cons x rest ih =>
    intro nm h
    rw [sectionCapture] at h
    by_cases hx : x = '['
    · rw [if_pos hx] at h
      cases htr : takeToRBracket rest with
      | none => rw [htr] at h; exact Option.noConfusion h
      | some p =>
        rw [htr] at h
        simp only at h
        by_cases hp : p.1 = []
        · rw [if_pos hp] at h
          obtain ⟨h1, h2, h3⟩ := ih nm h
          exact ⟨h1, h2, fun c hc => List.mem_cons_of_mem _ (h3 c hc)⟩
        · rw [if_neg hp] at h
          injection h with h2
          obtain ⟨hr, hni⟩ := takeToRBracket_sound rest p htr
          rw [← h2]
          refine ⟨hp, hni, ?_⟩
          intro c hc
          apply List.mem_cons_of_mem
          rw [hr]
          exact List.mem_append.mpr (Or.inl hc)
    · rw [if_neg hx] at h
      obtain ⟨h1, h2, h3⟩ := ih nm h
      exact ⟨h1, h2, fun c hc => List.mem_cons_of_mem _ (h3 c hc)⟩

/-- Keys absent from an association list are absent from its lookups. -/
theorem lookupAssoc_none_iff {α : Type} (m : List (Str × α)) (k : Str) :
    lookupAssoc m k = none ↔ k ∉ m.map (fun e => e.1) := by
  induction m with
  | nil => exact iff_of_true rfl (by simp)
  | cons p rest ih =>
    rw [lookupAssoc]
    by_cases h : p.1 = k
    · rw [if_pos h]
      constructor
      · intro hc
        exact absurd hc (by simp)
      · intro hk
        exfalso
        apply hk
        rw [List.map_cons]
        exact List.mem_cons.mpr (Or.inl h.symm)
    · rw [if_neg h]
      rw [ih]
      simp only [List.map_cons, List.mem_cons]
      constructor
      · intro hk hcontra
        rcases hcontra with hc | hc
        · exact h hc.symm
        · exact hk hc
      · intro hk
        exact fun hc => hk (Or.inr hc)

/-- Setting an existing key keeps the name list. -/
theorem setAssoc_names_some {α : Type} (m : List (Str × α)) (k : Str) (v : α)
    (h : k ∈ m.map (fun e => e.1)) :
    (setAssoc m k v).map (fun e => e.1) = m.map (fun e => e.1) := by
  induction m with
  | nil => simp at h
  | cons p rest ih =>
    rw [setAssoc]
    by_cases hp : p.1 = k
    · rw [if_pos hp]
      simp [hp]
    · rw [if_neg hp]
      simp only [List.map_cons, List.cons.injEq]
      refine ⟨by trivial, ih ?_⟩
      simp only [List.map_cons, List.mem_cons] at h
      rcases h with h | h
      · exact absurd h.symm hp
      · exact h

/-- Setting a fresh key appends it. -/
theorem setAssoc_fresh {α : Type} (m : List (Str × α)) (k : Str) (v : α)
    (h : k ∉ m.map (fun e => e.1)) :
    setAssoc m k v = m ++ [(k, v)] := by
  induction m with
  | nil => rfl
  | cons p rest ih =>
    rw [setAssoc]
    simp only [List.map_cons, List.mem_cons] at h
    rw [if_neg (fun hc => h (Or.inl hc.symm))]
    rw [List.cons_append, ih (fun hc => h (Or.inr hc))]

/-- Distinctness of names in an association list. -/
def NamesDistinct {α : Type} (m : List (Str × α)) : Prop :=
  (m.map (fun e => e.1)).Pairwise (fun a b => a ≠ b)

/-- Assignment preserves distinctness of names. -/
theorem setAssoc_namesDistinct {α : Type} (m : List (Str × α)) (k : Str) (v : α)
    (h : NamesDistinct m) : NamesDistinct (setAssoc m k v) := by
  unfold NamesDistinct at h ⊢
  by_cases hk : k ∈ m.map (fun e => e.1)
  · rw [setAssoc_names_some m k v hk]
    exact h
  · rw [setAssoc_fresh m k v hk]
    rw [List.map_append, List.pairwise_append]
    refine ⟨h, by simp, ?_⟩
    intro a ha b hb
    simp only [List.map_cons, List.map_nil, List.mem_cons, List.not_mem_nil, or_false] at hb
    rw [hb]
    exact fun hc => hk (hc ▸ ha)

/-- A key assignment in one section keeps the section name list. -/
theorem storeSetKey_names (store : Store) (s k v : Str) :
    (storeSetKey store s k v).map (fun e => e.1) = store.map (fun e => e.1) := by
  induction store with
  | nil => rfl
  | cons p rest ih =>
    obtain ⟨s', sec⟩ := p
    rw [storeSetKey]
    by_cases h : s' = s
    · rw [if_pos h]
      simp
    · rw [if_neg h]
      simp only [List.map_cons, List.cons.injEq]
      exact ⟨by trivial, ih⟩

/-- A bracket token survives appending on the right. -/
theorem hasTok_append_right (k t : Str) (h : HasTok k) : HasTok (k ++ t) := by
  obtain ⟨a, b, c, heq, hbne, hbni⟩ := h
  refine ⟨a, b, c ++ t, ?_, hbne, hbni⟩
  rw [heq]
  simp [List.append_assoc]

/-- A bracket token survives appending on the left. -/
theorem hasTok_append_left (t v : Str) (h : HasTok v) : HasTok (t ++ v) := by
  obtain ⟨a, b, c, heq, hbne, hbni⟩ := h
  refine ⟨t ++ a, b, c, ?_, hbne, hbni⟩
  rw [heq]
  simp [List.append_assoc]

/-- A bracket token may straddle an inserted middle part, provided no `]`
intervenes between the `[` and the `]`. -/
theorem hasTok_straddle (k1 k2 mid v1 v2 : Str)
    (hk2 : ']' ∉ k2) (hmidne : mid ≠ []) (hmid : ']' ∉ mid) (hv1 : ']' ∉ v1) :
    HasTok ((k1 ++ '[' :: k2) ++ mid ++ (v1 ++ ']' :: v2)) := by
  refine ⟨k1, k2 ++ mid ++ v1, v2, ?_, ?_, ?_⟩
  · simp [List.append_assoc]
  · intro hcontra
    rcases List.append_eq_nil.mp hcontra with ⟨h1, -⟩
    rcases List.append_eq_nil.mp h1 with ⟨-, h3⟩
    exact hmidne h3
  · intro hmem
    rcases List.mem_append.mp hmem with hm | hm
    · rcases List.mem_append.mp hm with hm1 | hm1
      · exact hk2 hm1
      · exact hmid hm1
    · exact hv1 hm

/-- Transfer of a bracket token from the reconstructed `key=value` line to
the original key/value line (key, white space, delimiter, white space,
value): any token of the former yields a token of the latter. -/
theorem hasTok_transfer (k w1 w2 v : Str) (d : Char)
    (hw1 : ∀ c ∈ w1, isWs c = true) (hw2 : ∀ c ∈ w2, isWs c = true)
    (hd : isDelim d = true)
    (h : HasTok (k ++ '=' :: v)) :
    HasTok (k ++ (w1 ++ d :: w2) ++ v) := by
  have hmid_no_rb : ']' ∉ w1 ++ d :: w2 := by
    intro hmem
    rcases List.mem_append.mp hmem with hm | hm
    · have := hw1 _ hm
      exact absurd this (by decide)
    · rcases List.mem_cons.mp hm with hm1 | hm1
      · rw [← hm1] at hd
        exact absurd hd (by decide)
      · have := hw2 _ hm1
        exact absurd this (by decide)
  have hmid_ne : w1 ++ d :: w2 ≠ [] := by simp
  obtain ⟨a, b, c, heq, hbne, hbni⟩ := h
  rcases List.append_eq_append_iff.mp heq with ⟨t, hAa, hAt⟩ | ⟨t, hBk, hBt⟩
  · cases t with
    | nil =>
      rw [List.nil_append] at hAt
      injection hAt with h1 h2
      exact absurd h1 (by decide)
    | cons z t' =>
      rw [List.cons_append] at hAt
      injection hAt with h1 h2
      have hv : HasTok v := ⟨t', b, c, h2, hbne, hbni⟩
      exact hasTok_append_left (k ++ (w1 ++ d :: w2)) v hv
  · cases t with
    | nil =>
      rw [List.nil_append] at hBt
      injection hBt with h1 h2
      exact absurd h1 (by decide)
    | cons z t' =>
      rw [List.cons_append] at hBt
      injection hBt with h1 h2
      rcases List.append_eq_append_iff.mp h2 with ⟨u, hu1, hu2⟩ | ⟨u, hu1, hu2⟩
      · cases u with
        | nil =>
          rw [List.nil_append] at hu2
          injection hu2 with h3 h4
          exact absurd h3 (by decide)
        | cons y u' =>
          rw [List.cons_append] at hu2
          injection hu2 with h3 h4
          have hk : HasTok k := by
            refine ⟨a, b, u', ?_, hbne, hbni⟩
            rw [hBk, hu1, h1, h3]
          have hres := hasTok_append_right k ((w1 ++ d :: w2) ++ v) hk
          rw [← List.append_assoc] at hres
          exact hres
      · cases u with
        | nil =>
          rw [List.nil_append] at hu2
          injection hu2 with h3 h4
          exact absurd h3 (by decide)
        | cons y u' =>
          rw [List.cons_append] at hu2
          injection hu2 with h3 h4
          have ht'ni : ']' ∉ t' := fun hm => hbni (hu1 ▸ List.mem_append.mpr (Or.inl hm))
          have hu'ni : ']' ∉ u' := by
            intro hm
            apply hbni
            rw [hu1]
            exact List.mem_append.mpr (Or.inr (List.mem_cons_of_mem _ hm))
          have hres := hasTok_straddle a t' (w1 ++ d :: w2) u' c ht'ni hmid_ne hmid_no_rb hu'ni
          rw [hBk, ← h1, h4]
          exact hres

/-- Transfer of the absence of a bracket token from the original key/value
line to the reconstructed `key=value` line. -/
theorem sectionCapture_transfer (k w1 w2 v : Str) (d : Char)
    (hw1 : ∀ c ∈ w1, isWs c = true) (hw2 : ∀ c ∈ w2, isWs c = true)
    (hd : isDelim d = true)
    (h : sectionCapture (k ++ (w1 ++ d :: w2) ++ v) = none) :
    sectionCapture (k ++ '=' :: v) = none := by
  cases hsc : sectionCapture (k ++ '=' :: v) with
  | none => rfl
  | some nm =>
    exfalso
    have h1 : (sectionCapture (k ++ '=' :: v)).isSome = true := by rw [hsc]; rfl
    have h2 := (sectionCapture_isSome_iff _).mp h1
    have h3 := hasTok_transfer k w1 w2 v d hw1 hw2 hd h2
    have h4 := (sectionCapture_isSome_iff _).mpr h3
    rw [h] at h4
    exact absurd h4 (by simp)

/-- Shape invariants of a key/value pair as produced by the parser: the
key is non-empty, carries no leading or trailing white space, contains no
delimiter, is not comment-shaped, the reconstructed `key=value` line has
no bracket token, the value carries no leading white space, and neither
side contains a line boundary. -/
structure KeyWF (k v : Str) : Prop where
  ne : k ≠ []
  keepL : dropLeadingWs k = k
  keepT : dropTrailingWs k = k
  noDelim : ∀ c ∈ k, isDelim c = false
  notComment : isCommentLine k = false
  noTok : sectionCapture (k ++ '=' :: v) = none
  kBound : ∀ c ∈ k, isBoundary c = false
  vKeepL : dropLeadingWs v = v
  vBound : ∀ c ∈ v, isBoundary c = false

/-- Shape invariants of a section name as produced by the parser. -/
structure SecWF (nm : Str) : Prop where
  ne : nm ≠ []
  noRB : ']' ∉ nm
  bound : ∀ c ∈ nm, isBoundary c = false

/-- Well-formedness of a section body. -/
def SectWF (sec : Sect) : Prop :=
  NamesDistinct sec ∧ ∀ kv ∈ sec, KeyWF kv.1 kv.2

/-- Well-formedness of a store. -/
def StoreWF (store : Store) : Prop :=
  NamesDistinct store ∧ ∀ e ∈ store, SecWF e.1 ∧ SectWF e.2

/-- Decomposition of a line accepted by the `KEY` pattern. -/
theorem keyExec_facts (l' : Str) (kv : Str × Str)
    (hl : dropLeadingWs l' = l')
    (hke : keyExec l' = some kv) :
    ∃ w1 d w2, l' = kv.1 ++ (w1 ++ d :: w2) ++ kv.2 ∧
      (∀ c ∈ w1, isWs c = true) ∧ (∀ c ∈ w2, isWs c = true) ∧ isDelim d = true ∧
      (∀ c ∈ kv.1, isDelim c = false) ∧
      dropTrailingWs kv.1 = kv.1 ∧ dropLeadingWs kv.2 = kv.2 ∧
      (∀ c ∈ kv.1, c ∈ l') ∧ (∀ c ∈ kv.2, c ∈ l') := by
  unfold keyExec at hke
  rw [hl] at hke
  cases hsf : splitAtFirstDelim l' with
  | none => rw [hsf] at hke; exact Option.noConfusion hke
  | some q =>
    rw [hsf] at hke
    simp only at hke
    injection hke with h2
    obtain ⟨hq1, hq2, hq3⟩ := splitAtFirstDelim_sound l' q hsf
    obtain ⟨w1, hw1eq, hw1⟩ := dropTrailingWs_decomp q.1
    obtain ⟨w2, hw2eq, hw2⟩ := dropLeadingWs_decomp q.2.2
    refine ⟨w1, q.2.1, w2, ?_, hw1, hw2, hq3, ?_, ?_, ?_, ?_, ?_⟩
    · rw [← h2]
      simp only
      rw [hq1]
      conv_lhs => rw [hw1eq, hw2eq]
      simp [List.append_assoc]
    · intro c hc
      apply hq2
      rw [← h2] at hc
      simp only at hc
      rw [hw1eq]
      exact List.mem_append.mpr (Or.inl hc)
    · rw [← h2]
      simp only
      exact dropTrailingWs_idem q.1
    · rw [← h2]
      simp only
      exact dropLeadingWs_idem q.2.2
    · intro c hc
      rw [← h2] at hc
      simp only at hc
      rw [hq1, hw1eq]
      exact List.mem_append.mpr (Or.inl (List.mem_append.mpr (Or.inl hc)))
    · intro c hc
      rw [← h2] at hc
      simp only at hc
      rw [hq1, hw2eq]
      exact List.mem_append.mpr (Or.inr (List.mem_cons_of_mem _
        (List.mem_append.mpr (Or.inr hc))))

/-- The key/value pair extracted from a non-comment, non-header line of the
input satisfies the parser invariants. -/
theorem keyExec_wf (l : Str) (kv : Str × Str)
    (hbound : ∀ c ∈ l, isBoundary c = false)
    (hC : isCommentLine (dropLeadingWs l) = false)
    (hS : sectionCapture (dropLeadingWs l) = none)
    (hke : keyExec (dropLeadingWs l) = some kv)
    (hne : kv.1 ≠ []) :
    KeyWF kv.1 kv.2 := by
  obtain ⟨w1, d, w2, heq, hw1, hw2, hd, hnd, hkeepT, hvKeepL, hmem1, hmem2⟩ :=
    keyExec_facts (dropLeadingWs l) kv (dropLeadingWs_idem l) hke
  obtain ⟨c, k'', hk⟩ : ∃ c k'', kv.1 = c :: k'' := by
    cases hck : kv.1 with
    | nil => exact absurd hck hne
    | cons c k'' => exact ⟨c, k'', rfl⟩
  have hlc : ∃ rest', dropLeadingWs l = c :: rest' := by
    rw [heq, hk]
    exact ⟨k'' ++ (w1 ++ d :: w2) ++ kv.2, by simp [List.append_assoc]⟩
  obtain ⟨rest', hrest⟩ := hlc
  have hcws : isWs c = false := dropLeadingWs_head_not_ws l c rest' hrest
  refine ⟨hne, ?_, hkeepT, hnd, ?_, ?_, ?_, hvKeepL, ?_⟩
  · rw [hk]
    exact dropLeadingWs_cons_keep c k'' hcws
  · rw [hk]
    rw [hrest] at hC
    exact hC
  · apply sectionCapture_transfer kv.1 w1 w2 kv.2 d hw1 hw2 hd
    rw [← heq]
    exact hS
  · intro c' hc'
    exact hbound c' (dropLeadingWs_subset l c' (hmem1 c' hc'))
  · intro c' hc'
    exact hbound c' (dropLeadingWs_subset l c' (hmem2 c' hc'))

/-- A key assignment preserves store well-formedness when the new pair is
well formed. -/
theorem storeSetKey_wf (store : Store) (s k v : Str)
    (hwf : StoreWF store) (hkv : KeyWF k v) : StoreWF (storeSetKey store s k v) := by
  constructor
  · unfold NamesDistinct
    rw [storeSetKey_names]
    exact hwf.1
  · intro e he
    rcases storeSetKey_mem store s k v e he with h1 | ⟨y, hy, h1⟩
    · exact hwf.2 e h1
    · obtain ⟨hsec, hsect⟩ := hwf.2 y hy
      rw [h1]
      refine ⟨hsec, setAssoc_namesDistinct _ _ _ hsect.1, ?_⟩
      intro kv' hkv'
      rcases setAssoc_mem y.2 k v kv' hkv' with h2 | h2
      · rw [h2]
        exact hkv
      · exact hsect.2 kv' h2

/-- Creating or resetting a section preserves store well-formedness when
the section name is well formed. -/
theorem setAssoc_store_wf (store : Store) (nm : Str)
    (hwf : StoreWF store) (hnm : SecWF nm) : StoreWF (setAssoc store nm []) := by
  constructor
  · exact setAssoc_namesDistinct _ _ _ hwf.1
  · intro e he
    rcases setAssoc_mem store nm [] e he with h1 | h1
    · rw [h1]
      refine ⟨hnm, ?_, ?_⟩
      · unfold NamesDistinct
        simp
      · intro kv h
        simp at h
    · exact hwf.2 e h1

/-- Parsing boundary-free lines with the identity transform preserves
store well-formedness. -/
theorem parse_storeWF (cfg : Config) (hcfg : cfg.transform = Transform.none) :
    ∀ (lines : List Str), (∀ l ∈ lines, ∀ c ∈ l, isBoundary c = false) →
      ∀ n st, StoreWF st.store →
        ∀ st', parseLinesAux cfg lines n st = Except.ok st' → StoreWF st'.store := by
  intro lines
  induction lines with
  | nil =>
    intro _ n st h st' he
    unfold parseLinesAux at he
    cases he
    exact h
  | cons l rest ih =>
    intro hbound n st h st' he
    have hboundl : ∀ c ∈ l, isBoundary c = false := hbound l (List.mem_cons_self _ _)
    have hboundr : ∀ l' ∈ rest, ∀ c ∈ l', isBoundary c = false :=
      fun l' hl' => hbound l' (List.mem_cons_of_mem _ hl')
    rcases parseStep_ok cfg l rest n st st' he with ⟨st1, he1, hcase⟩
    rcases hcase with ⟨hst, _⟩ | ⟨hd, hB, hC, hS, hst⟩ |
      ⟨s, kv, hB, hC, hS, hcur, hke, hne, hhead, hst⟩
    · exact ih hboundr (n + 1) st1 (hst ▸ h) st' he1
    · apply ih hboundr (n + 1) st1 _ st' he1
      rw [hst, hcfg]
      obtain ⟨hn1, hn2, hn3⟩ := sectionCapture_some_facts (dropLeadingWs l) hd hS
      exact setAssoc_store_wf st.store hd h
        ⟨hn1, hn2, fun c hc => hboundl c (dropLeadingWs_subset l c (hn3 c hc))⟩
    · apply ih hboundr (n + 1) st1 _ st' he1
      rw [hst, hcfg]
      exact storeSetKey_wf st.store s kv.1 kv.2 h
        (keyExec_wf l kv hboundl hC hS hke hne)

/-- Unfolding of the splitter on a cons cell. -/
theorem splitLinesAux_cons (c : Char) (rest acc : Str) :
    splitLinesAux (c :: rest) acc =
      if c = '\r' then
        match rest with
        | c2 :: rest2 =>
          if c2 = '\n' then acc.reverse :: splitLinesAux rest2 []
          else acc.reverse :: splitLinesAux (c2 :: rest2) []
        | [] => acc.reverse :: splitLinesAux [] []
      else if isBoundary c then acc.reverse :: splitLinesAux rest []
      else splitLinesAux rest (c :: acc) := by
  rw [splitLinesAux.eq_def]
  rfl

/-- Lines produced by the line splitter contain no boundary characters. -/
theorem splitLinesAux_bound :
    ∀ (s acc : Str), (∀ c ∈ acc, isBoundary c = false) →
      ∀ l ∈ splitLinesAux s acc, ∀ c ∈ l, isBoundary c = false := by
  intro s acc
  induction s, acc using splitLinesAux.induct with
  | case1 acc =>
    intro hacc l hl c hc
    simp only [splitLinesAux, List.mem_singleton] at hl
    rw [hl] at hc
    exact hacc c (List.mem_reverse.mp hc)
  | case2 acc rest2 ih =>
    intro hacc l hl c hc
    simp [splitLinesAux] at hl
    rcases hl with hl | hl
    · rw [hl] at hc
      exact hacc c (List.mem_reverse.mp hc)
    · exact ih (by simp) l hl c hc
  | case3 acc c2 rest2 hne ih =>
    intro hacc l hl c hc
    simp [splitLinesAux, hne] at hl
    rcases hl with hl | hl
    · rw [hl] at hc
      exact hacc c (List.mem_reverse.mp hc)
    · exact ih (by simp) l hl c hc
  | case4 acc ih =>
    intro hacc l hl c hc
    simp [splitLinesAux] at hl
    rcases hl with hl | hl
    · rw [hl] at hc
      exact hacc c (List.mem_reverse.mp hc)
    · rw [hl] at hc
      simp at hc
  | case5 c0 rest acc hcr hbd ih =>
    intro hacc l hl c hc
    rw [splitLinesAux_cons, if_neg hcr, if_pos hbd] at hl
    rcases List.mem_cons.mp hl with hl | hl
    · rw [hl] at hc
      exact hacc c (List.mem_reverse.mp hc)
    · exact ih (by simp) l hl c hc
  | case6 c0 rest acc hcr hnb ih =>
    intro hacc l hl c hc
    rw [splitLinesAux_cons, if_neg hcr, if_neg hnb] at hl
    refine ih ?_ l hl c hc
    intro c' hc'
    rcases List.mem_cons.mp hc' with hm | hm
    · rw [hm]
      exact Bool.not_eq_true _ |>.mp hnb
    · exact hacc c' hm

/-- Every line of a split document is boundary-free. -/
theorem splitLines_bound (s : Str) :
    ∀ l ∈ splitLines s, ∀ c ∈ l, isBoundary c = false :=
  splitLinesAux_bound s [] (by simp)

/-- Splitting a boundary-free part terminated by a newline yields it as one
line. -/
theorem splitLinesAux_append_nl (a : Str) (ha : ∀ c ∈ a, isBoundary c = false) :
    ∀ (r acc : Str),
      splitLinesAux (a ++ '\n' :: r) acc = (acc.reverse ++ a) :: splitLinesAux r [] := by
  induction a with
  | nil =>
    intro r acc
    rw [List.nil_append, splitLinesAux_cons]
    rw [if_neg (by decide)]
    rw [if_pos (by decide)]
    rw [List.append_nil]
  | cons c a' ih =>
    intro r acc
    have hc : isBoundary c = false := ha c (List.mem_cons_self _ _)
    have hcr : c ≠ '\r' := by
      intro hcontra
      rw [hcontra] at hc
      exact absurd hc (by decide)
    rw [List.cons_append, splitLinesAux_cons, if_neg hcr,
      if_neg (by rw [hc]; exact Bool.false_ne_true)]
    rw [ih (fun c' h' => ha c' (List.mem_cons_of_mem _ h')) r (c :: acc)]
    rw [List.reverse_cons, List.append_assoc]
    rfl

/-- The output lines of one serialized section body. -/
def keyLines (sec : Sect) : List Str := sec.map keyLine

/-- The line sequence a serialized store splits back into: for each
section, its header line, its key lines, and a blank separator line, with
one final blank line from the terminating newline. -/
def docLines : Store → List Str
  | [] => [[]]
  | (nm, sec) :: rest => ('[' :: (nm ++ [']'])) :: (keyLines sec ++ [] :: docLines rest)

/-- A key line of a well-formed pair is boundary-free. -/
theorem keyLine_bound (kv : Str × Str) (hwf : KeyWF kv.1 kv.2) :
    ∀ c ∈ keyLine kv, isBoundary c = false := by
  intro c hc
  unfold keyLine at hc
  rcases List.mem_append.mp hc with hm | hm
  · exact hwf.kBound c hm
  · rcases List.mem_cons.mp hm with hm1 | hm1
    · rw [hm1]
      rfl
    · exact hwf.vBound c hm1

/-- Splitting the serialization of a section body followed by a newline
and a tail. -/
theorem splitLines_serializeSec (sec : Sect) (hsec : ∀ kv ∈ sec, KeyWF kv.1 kv.2)
    (tail : Str) :
    splitLinesAux (serializeSec sec ++ '\n' :: tail) [] =
      keyLines sec ++ [] :: splitLinesAux tail [] := by
  induction sec with
  | nil =>
    rw [serializeSec, List.nil_append, splitLinesAux_cons]
    rw [if_neg (by decide), if_pos (by decide)]
    rfl
  | cons kv rest ih =>
    rw [serializeSec]
    rw [List.append_assoc, List.cons_append]
    rw [splitLinesAux_append_nl (keyLine kv)
      (keyLine_bound kv (hsec kv (List.mem_cons_self _ _))) _ []]
    rw [ih (fun kv' h' => hsec kv' (List.mem_cons_of_mem _ h'))]
    rfl

/-- Splitting the serialization of a well-formed store yields its document
lines. -/
theorem splitLines_serialize (store : Store) (hwf : StoreWF store) :
    splitLines (serializeStore store) = docLines store := by
  induction store with
  | nil => rfl
  | cons e rest ih =>
    obtain ⟨nm, sec⟩ := e
    obtain ⟨hsecwf, hsectwf⟩ := hwf.2 (nm, sec) (List.mem_cons_self _ _)
    have hrest : StoreWF rest := by
      refine ⟨?_, fun e' h' => hwf.2 e' (List.mem_cons_of_mem _ h')⟩
      have := hwf.1
      unfold NamesDistinct at this ⊢
      rw [List.map_cons] at this
      exact (List.pairwise_cons.mp this).2
    unfold splitLines
    rw [serializeStore]
    have hshape : '[' :: (nm ++ ']' :: '\n' :: (serializeSec sec ++ '\n' :: serializeStore rest)) =
        ('[' :: (nm ++ [']'])) ++ '\n' :: (serializeSec sec ++ '\n' :: serializeStore rest) := by
      simp [List.append_assoc]
    rw [hshape]
    rw [splitLinesAux_append_nl ('[' :: (nm ++ [']']))
      (by
        intro c hc
        rcases List.mem_cons.mp hc with hm | hm
        · rw [hm]; rfl
        · rcases List.mem_append.mp hm with hm1 | hm1
          · exact hsecwf.bound c hm1
          · rcases List.mem_cons.mp hm1 with hm2 | hm2
            · rw [hm2]; rfl
            · simp at hm2) _ []]
    rw [splitLines_serializeSec sec hsectwf.2]
    rw [docLines]
    unfold splitLines at ih
    rw [ih hrest]
    rfl

/-- A key assignment targeting the last section leaves the other sections
untouched and updates the last one. -/
theorem storeSetKey_append_last (s0 : Store) (nm : Str) (acc : Sect) (k v : Str)
    (h : nm ∉ s0.map (fun e => e.1)) :
    storeSetKey (s0 ++ [(nm, acc)]) nm k v = s0 ++ [(nm, setAssoc acc k v)] := by
  induction s0 with
  | nil =>
    rw [List.nil_append, storeSetKey, if_pos rfl]
    rfl
  | cons p rest ih =>
    obtain ⟨s', sec'⟩ := p
    rw [List.cons_append, storeSetKey]
    rw [List.map_cons] at h
    rw [if_neg (fun hc => h (List.mem_cons.mpr (Or.inl hc.symm)))]
    rw [List.cons_append, ih (fun hc => h (List.mem_cons.mpr (Or.inr hc)))]

/-- One parser step on a serialized key line of a well-formed pair. -/
theorem keyLine_step (cfg : Config) (hcfg : cfg.transform = Transform.none)
    (kv : Str × Str) (hwf : KeyWF kv.1 kv.2)
    (rest : List Str) (n : Nat) (st : PState) (s : Str) (hcur : st.curSec = some s) :
    parseLinesAux cfg (keyLine kv :: rest) n st =
      parseLinesAux cfg rest (n + 1) ⟨storeSetKey st.store s kv.1 kv.2, some s, st.events⟩ := by
  obtain ⟨c, k'', hk⟩ : ∃ c k'', kv.1 = c :: k'' := by
    cases hck : kv.1 with
    | nil => exact absurd hck hwf.ne
    | cons c k'' => exact ⟨c, k'', rfl⟩
  have hcws : isWs c = false := keep_head_not_ws c k'' (by rw [← hk]; exact hwf.keepL)
  have hline : dropLeadingWs (keyLine kv) = keyLine kv := by
    unfold keyLine
    rw [hk, List.cons_append]
    exact dropLeadingWs_cons_keep c _ hcws
  have hnel : keyLine kv ≠ [] := by
    unfold keyLine
    rw [hk]
    simp
  have hcomment : isCommentLine (dropLeadingWs (keyLine kv)) = false := by
    rw [hline]
    unfold keyLine
    rw [hk, List.cons_append]
    have hnc := hwf.notComment
    rw [hk] at hnc
    exact hnc
  have hsec : sectionCapture (dropLeadingWs (keyLine kv)) = none := by
    rw [hline]
    exact hwf.noTok
  have hkey : keyExec (dropLeadingWs (keyLine kv)) = some (kv.1, kv.2) := by
    rw [hline]
    unfold keyExec
    rw [hline]
    unfold keyLine
    rw [splitAtFirstDelim_build kv.1 '=' kv.2 hwf.noDelim (by decide)]
    simp only
    rw [hwf.keepT, hwf.vKeepL]
  have hhead : (dropLeadingWs (keyLine kv)).head? ≠ some '=' := by
    rw [hline]
    unfold keyLine
    rw [hk, List.cons_append, List.head?_cons]
    intro hcontra
    injection hcontra with hc2
    have hcd := hwf.noDelim c (by rw [hk]; exact List.mem_cons_self _ _)
    rw [hc2] at hcd
    exact absurd hcd (by decide)
  rw [step_key cfg (keyLine kv) rest n st s (kv.1, kv.2)
    (by rw [hline]; exact hnel) hcomment hsec hcur hkey hwf.ne hhead]
  rw [hcfg]
  rfl

/-- One parser step on a serialized header line of a well-formed section
name. -/
theorem header_step (cfg : Config) (nm : Str) (hne : nm ≠ []) (hnoRB : ']' ∉ nm)
    (rest : List Str) (n : Nat) (st : PState) :
    parseLinesAux cfg (('[' :: (nm ++ [']'])) :: rest) n st =
      parseLinesAux cfg rest (n + 1)
        ⟨setAssoc st.store (applyTransform cfg.transform nm) [],
         some (applyTransform cfg.transform nm), st.events⟩ := by
  have hline : dropLeadingWs ('[' :: (nm ++ [']'])) = '[' :: (nm ++ [']']) :=
    dropLeadingWs_cons_keep '[' _ (by decide)
  have hcap : sectionCapture ('[' :: (nm ++ [']'])) = some nm := by
    rw [sectionCapture, if_pos rfl]
    rw [show nm ++ [']'] = nm ++ ']' :: [] from rfl]
    rw [takeToRBracket_build nm [] hnoRB]
    simp only
    rw [if_neg hne]
  exact step_header cfg _ rest n st nm (by rw [hline]; simp) (by rw [hline]; rfl)
    (by rw [hline]; exact hcap)

/-- Replay of the serialized key lines of one section. -/
theorem parse_keyLines (cfg : Config) (hcfg : cfg.transform = Transform.none) (nm : Str) :
    ∀ (kvs : Sect) (s0 : Store) (acc : Sect) (more : List Str) (n : Nat)
      (ev : List (Str × Nat × Str)),
      nm ∉ s0.map (fun e => e.1) →
      (∀ kv ∈ kvs, KeyWF kv.1 kv.2) →
      NamesDistinct kvs →
      (∀ kv ∈ kvs, kv.1 ∉ acc.map (fun e => e.1)) →
      parseLinesAux cfg (keyLines kvs ++ more) n ⟨s0 ++ [(nm, acc)], some nm, ev⟩ =
        parseLinesAux cfg more (n + kvs.length) ⟨s0 ++ [(nm, acc ++ kvs)], some nm, ev⟩ := by
  intro kvs
  induction kvs with
  | nil =>
    intro s0 acc more n ev h1 h2 h3 h4
    simp [keyLines]
  | cons kv kvs' ih =>
    intro s0 acc more n ev h1 h2 h3 h4
    rw [keyLines, List.map_cons, List.cons_append]
    rw [keyLine_step cfg hcfg kv (h2 kv (List.mem_cons_self _ _)) _ n _ nm rfl]
    rw [storeSetKey_append_last s0 nm acc kv.1 kv.2 h1]
    rw [setAssoc_fresh acc kv.1 kv.2 (h4 kv (List.mem_cons_self _ _))]
    show parseLinesAux cfg (keyLines kvs' ++ more) (n + 1)
        ⟨s0 ++ [(nm, acc ++ [kv])], some nm, ev⟩ =
      parseLinesAux cfg more (n + (kv :: kvs').length)
        ⟨s0 ++ [(nm, acc ++ kv :: kvs')], some nm, ev⟩
    have hdis : NamesDistinct kvs' := by
      unfold NamesDistinct at h3 ⊢
      rw [List.map_cons] at h3
      exact (List.pairwise_cons.mp h3).2
    have hfresh : ∀ kv' ∈ kvs', kv'.1 ∉ (acc ++ [kv]).map (fun e => e.1) := by
      intro kv' hkv' hmem
      rw [List.map_append] at hmem
      rcases List.mem_append.mp hmem with hm | hm
      · exact h4 kv' (List.mem_cons_of_mem _ hkv') hm
      · simp only [List.map_cons, List.map_nil, List.mem_singleton] at hm
        unfold NamesDistinct at h3
        rw [List.map_cons] at h3
        have := (List.pairwise_cons.mp h3).1 kv'.1
          (List.mem_map.mpr ⟨kv', hkv', rfl⟩)
        exact this hm.symm
    rw [ih s0 (acc ++ [kv]) more (n + 1) ev h1
      (fun kv' h' => h2 kv' (List.mem_cons_of_mem _ h')) hdis hfresh]
    rw [List.append_assoc]
    rw [show (n + 1) + kvs'.length = n + (kv :: kvs').length from by simp; omega]
    rfl

/-- Replay of a serialized well-formed store: parsing its document lines
appends exactly its sections to the store. -/
theorem parse_docLines (cfg : Config) (hcfg : cfg.transform = Transform.none) :
    ∀ (S : Store) (s0 : Store) (n : Nat) (cur : Option Str) (ev : List (Str × Nat × Str)),
      StoreWF S → (∀ e ∈ S, e.1 ∉ s0.map (fun e' => e'.1)) →
      ∃ cur', parseLinesAux cfg (docLines S) n ⟨s0, cur, ev⟩ =
        Except.ok ⟨s0 ++ S, cur', ev⟩ := by
  intro S
  induction S with
  | nil =>
    intro s0 n cur ev _ _
    refine ⟨cur, ?_⟩
    rw [docLines]
    rw [step_blank cfg [] [] n _ rfl]
    rw [List.append_nil]
    rfl
  | cons e rest ih =>
    obtain ⟨nm, sec⟩ := e
    intro s0 n cur ev hwf hfresh
    obtain ⟨hsecwf, hsectwf⟩ := hwf.2 (nm, sec) (List.mem_cons_self _ _)
    have hrestwf : StoreWF rest := by
      refine ⟨?_, fun e' h' => hwf.2 e' (List.mem_cons_of_mem _ h')⟩
      have hh := hwf.1
      unfold NamesDistinct at hh ⊢
      rw [List.map_cons] at hh
      exact (List.pairwise_cons.mp hh).2
    rw [docLines]
    rw [header_step cfg nm hsecwf.ne hsecwf.noRB _ n _]
    rw [hcfg]
    have hnm0 : nm ∉ s0.map (fun e' => e'.1) := hfresh (nm, sec) (List.mem_cons_self _ _)
    rw [show applyTransform Transform.none nm = nm from rfl]
    rw [setAssoc_fresh s0 nm [] hnm0]
    rw [parse_keyLines cfg hcfg nm sec s0 [] ([] :: docLines rest) (n + 1) ev hnm0
      hsectwf.2 hsectwf.1 (by simp)]
    rw [List.nil_append]
    rw [step_blank cfg [] (docLines rest) _ _ rfl]
    have hfresh' : ∀ e' ∈ rest, e'.1 ∉ (s0 ++ [(nm, sec)]).map (fun x => x.1) := by
      intro e' he' hmem
      rw [List.map_append] at hmem
      rcases List.mem_append.mp hmem with hm | hm
      · exact hfresh e' (List.mem_cons_of_mem _ he') hm
      · simp only [List.map_cons, List.map_nil, List.mem_singleton] at hm
        have hh := hwf.1
        unfold NamesDistinct at hh
        rw [List.map_cons] at hh
        have := (List.pairwise_cons.mp hh).1 e'.1 (List.mem_map.mpr ⟨e', he', rfl⟩)
        exact this hm.symm
    obtain ⟨cur', hcur'⟩ := ih (s0 ++ [(nm, sec)]) (n + 1 + sec.length + 1) (some nm) ev
      hrestwf hfresh'
    refine ⟨cur', ?_⟩
    rw [hcur']
    rw [List.append_assoc]
    rfl

/-- C5: round trip.  Parsing any document (with the identity transform)
and serializing the resulting store, then parsing the serialization again,
reproduces exactly the same raw section/key/value content. -/
theorem c5_roundtrip (cfg : Config) (doc : Str) (st : PState)
    (hcfg : cfg.transform = Transform.none)
    (hok : parseString cfg doc = Except.ok st) :
    ∃ st', parseString cfg (serializeStore st.store) = Except.ok st' ∧
      st'.store = st.store := by
  have hwf : StoreWF st.store := by
    apply parse_storeWF cfg hcfg (splitLines doc) (splitLines_bound doc) 0 ⟨[], none, []⟩
      ?_ st hok
    constructor
    · unfold NamesDistinct
      simp
    · intro e he
      simp at he
  obtain ⟨cur', hcur'⟩ := parse_docLines cfg hcfg st.store [] 0 none [] hwf
    (by intro e he hmem; simp at hmem)
  refine ⟨⟨st.store, cur', []⟩, ?_, rfl⟩
  unfold parseString parseLines
  rw [splitLines_serialize st.store hwf]
  rw [hcur']
  rw [List.nil_append]

/-- Witness for C5 at a concrete parsed document with two sections, one of
them empty, one holding two keys. -/
theorem c5_witness :
    ∃ st', parseString ⟨['f'], Transform.none, false⟩
        (serializeStore [(['d', 'b'], [(['h'], ['x', ' ']), (['p'], [])]), (['e'], [])]) =
          Except.ok st' ∧
      st'.store = [(['d', 'b'], [(['h'], ['x', ' ']), (['p'], [])]), (['e'], [])] := by
  have h := c5_roundtrip ⟨['f'], Transform.none, false⟩
    (['[', 'd', 'b', ']', '\n', 'h', '=', 'x', ' ', '\n', 'p', '=', '\n', '[', 'e', ']'])
    ⟨[(['d', 'b'], [(['h'], ['x', ' ']), (['p'], [])]), (['e'], [])], some ['e'], []⟩
    rfl (by decide)
  exact h
